import Mathlib

/-!
# SimpleDelay: a shallow embedding of the delay engine

Sources embedded here:
* `src/plugins/SimpleDelay/CParamSmooth.hpp` (the one-pole parameter smoother),
* `src/plugins/SimpleDelay/PluginSimpleDelay.cpp` (parameters, buffer, `run`).

Conventions of the embedding.
* Sample values (`AmpVal`, `float`, `double`) are exact rationals: the
  development is about the arithmetic the code writes down, not about
  rounding of IEEE floats.
* The conversion of a floating value to `int32_t` is truncation toward zero.
* Where rounding decides the property (the limit of the smoother, the read
  index of a fractional delay) the binary32 versions `processF32` and
  `readIndexF32` are used: `roundF32` is round-to-nearest-even with a 24-bit
  significand and no bound on the exponent.
* `buflen` and `writepos` are natural numbers; `readpos` is an integer.
  The plugin header that declares the members is not among the sources, so
  `delaylen`, `feedback` and `drywetmix` are taken to be sample-like values.
* A read or write through `buffer` outside the allocated storage (or through a
  null `buffer`) has no defined result: the loop body returns `none` there.
* The smoother coefficient `a = exp(..)` is kept as a field of the smoother
  state; the theorems quantify over it. Where the constructor is embedded,
  `exp` is a parameter and the theorems state what they assume of it.
* The macros `MAX_DELAY_TIME` and `PARAM_SMOOTH_TIME` live in the plugin
  header and are parameters; the answer of `new (std::nothrow)` is a flag.
-/

namespace SimpleDelay

/-- State of `class CParamSmooth`: the private members `a`, `b`, `z`. -/
structure CParamSmooth where
  a : ℚ
  b : ℚ
  z : ℚ
deriving DecidableEq

/-- Embeds `CParamSmooth::process`: `return z = (in * b) + (z * a);`.
The new smoother state comes first, the returned value second. -/
def CParamSmooth.process (c : CParamSmooth) (x : ℚ) : CParamSmooth × ℚ :=
  let z := (x * c.b) + (c.z * c.a)
  ({ c with z := z }, z)

/-- Parameter indices used by `setParameterValue` (the enumeration itself is
declared in the plugin header). -/
inductive ParamIndex where
  | paramDelay
  | paramFeedback
  | paramMix
deriving DecidableEq

/-- Members of `class PluginSimpleDelay` that the embedded functions touch.
`buffer = none` is the null pointer; `some xs` is allocated storage holding
`xs.length` samples. `sampleRate` is what `getSampleRate()` returns. -/
structure PluginSimpleDelay where
  sampleRate : ℚ
  fParams : ParamIndex → ℚ
  delaylen : ℚ
  feedback : ℚ
  drywetmix : ℚ
  buflen : ℕ
  writepos : ℕ
  buffer : Option (List ℚ)
  smooth_delay : CParamSmooth

/-- Embeds `PluginSimpleDelay::setParameterValue`. -/
def setParameterValue (p : PluginSimpleDelay) (index : ParamIndex) (value : ℚ) :
    PluginSimpleDelay :=
  let p := { p with fParams := Function.update p.fParams index value }
  match index with
  | .paramDelay => { p with delaylen := value / 1000 * p.sampleRate }
  | .paramFeedback => { p with feedback := value / 100 }
  | .paramMix => { p with drywetmix := (value + 100) / 201 }

/-- Conversion of a floating value to `int32_t`: the fractional part is
discarded (truncation toward zero). -/
def toInt32 (x : ℚ) : ℤ :=
  if 0 ≤ x then ⌊x⌋ else ⌈x⌉

/-- The read index of one loop iteration of `run`, for smoothed delay `s`:
`int32_t readpos = writepos - s; if (readpos < 0) readpos = buflen + readpos;`. -/
def readIndex (buflen writepos : ℕ) (s : ℚ) : ℤ :=
  let readpos : ℤ := toInt32 ((writepos : ℚ) - s)
  if readpos < 0 then (buflen : ℤ) + readpos else readpos

/-- Element access `buffer[readpos]` on storage `buf` with a signed index:
defined exactly for `0 ≤ readpos < buf.length`. -/
def readAt (buf : List ℚ) (readpos : ℤ) : Option ℚ :=
  if 0 ≤ readpos then buf[readpos.toNat]? else none

/-- What `run` has in hand inside its loop: the plugin members and the two
output arrays `outL`, `outR` (indexed by frame number). -/
structure RunState where
  p : PluginSimpleDelay
  outL : ℕ → ℚ
  outR : ℕ → ℚ

/-- Body of the `for` loop of `PluginSimpleDelay::run` at frame `i`. -/
def frame (inpL inpR : ℕ → ℚ) (i : ℕ) (st : RunState) : Option RunState :=
  let p := st.p
  let sm := p.smooth_delay.process p.delaylen
  let readpos := readIndex p.buflen p.writepos sm.2
  match p.buffer with
  | none => none
  | some buf =>
    match readAt buf readpos with
    | none => none
    | some out =>
      let left := inpL i
      let right := inpR i
      let wetsignal := out * p.drywetmix
      let outL := Function.update st.outL i (left * (1 - p.drywetmix) + wetsignal)
      let outR := Function.update st.outR i (right * (1 - p.drywetmix) + wetsignal)
      if p.writepos < buf.length then
        let buf := buf.set p.writepos ((left + right) / 2 + out * p.feedback)
        let writepos := p.writepos + 1
        let writepos := if writepos ≥ p.buflen then 0 else writepos
        some { p := { p with smooth_delay := sm.1, buffer := some buf, writepos := writepos },
               outL := outL, outR := outR }
      else none

/-- The loop `for (i = ...; i < frames; ++i)` of `run`, with `n` iterations
still to go and `i` the current frame number. -/
def runFrom (inpL inpR : ℕ → ℚ) : ℕ → ℕ → RunState → Option RunState
  | 0, _, st => some st
  | n + 1, i, st => (frame inpL inpR i st).bind (runFrom inpL inpR n (i + 1))

/-- Embeds `PluginSimpleDelay::run`: the loop runs only when `buflen > 0`;
otherwise nothing is read or written. -/
def run (p : PluginSimpleDelay) (inpL inpR outL outR : ℕ → ℚ) (frames : ℕ) :
    Option RunState :=
  if p.buflen > 0 then runFrom inpL inpR frames 0 ⟨p, outL, outR⟩
  else some ⟨p, outL, outR⟩

/-- The macro `TWO_PI` of `CParamSmooth.hpp`, as the exact decimal written
there. -/
def TWO_PI : ℚ := 6.283185307179586476925286766559

/-- Embeds the constructor `CParamSmooth::CParamSmooth`:
`a = exp(-TWO_PI / (smoothingTimeMs * 0.001f * samplingRate)); b = 1.0f - a;
z = 0.0f;`. The function `expf` stands for `exp` of `<math.h>`, whose values
are not rational; the theorems state what they need of it. A zero denominator,
where the floating division yields an infinity, is outside this model and no
theorem below speaks about it. -/
def CParamSmooth.construct (expf : ℚ → ℚ) (smoothingTimeMs samplingRate : ℚ) :
    CParamSmooth :=
  let a := expf (-TWO_PI / (smoothingTimeMs * 0.001 * samplingRate))
  { a := a, b := 1 - a, z := 0 }

/-- Modelled from the spec: `CParamSmooth::initialize`, which `activate` calls
and `CParamSmooth.hpp` does not define. The spec: re-initialization "resets
`a,b` but should preserve `z`". -/
def CParamSmooth.initialize (expf : ℚ → ℚ) (c : CParamSmooth)
    (smoothingTimeMs samplingRate : ℚ) : CParamSmooth :=
  let a := expf (-TWO_PI / (smoothingTimeMs * 0.001 * samplingRate))
  { c with a := a, b := 1 - a }

/-- Embeds `PluginSimpleDelay::loadProgram`. -/
def loadProgram (p : PluginSimpleDelay) (index : ℕ) : PluginSimpleDelay :=
  match index with
  | 0 =>
    setParameterValue
      (setParameterValue (setParameterValue p ParamIndex.paramDelay 240)
        ParamIndex.paramFeedback 20)
      ParamIndex.paramMix 0
  | _ => p

/-- Embeds the constructor `PluginSimpleDelay::PluginSimpleDelay`:
`smooth_delay = new CParamSmooth(PARAM_SMOOTH_TIME, getSampleRate());
loadProgram(0);`. The argument `raw` holds the members as they are before the
constructor body runs; the macro `PARAM_SMOOTH_TIME` of the plugin header is a
parameter. -/
def PluginSimpleDelay.construct (expf : ℚ → ℚ) (PARAM_SMOOTH_TIME : ℚ)
    (raw : PluginSimpleDelay) : PluginSimpleDelay :=
  loadProgram
    { raw with smooth_delay := CParamSmooth.construct expf PARAM_SMOOTH_TIME raw.sampleRate } 0

/-- The cast `(uint32_t)sampleRate`: the fractional part is discarded and the
value is kept in 32 bits. -/
def toUInt32 (x : ℚ) : ℕ :=
  (toInt32 x).toNat % 2 ^ 32

/-- Embeds `PluginSimpleDelay::allocateBuffer`. The flag `allocOk` is the
answer of `new (std::nothrow)`: `false` is the null pointer. The macro
`MAX_DELAY_TIME` of the plugin header is a parameter; `buflen` is kept in 32
bits like the cast that feeds it. -/
def allocateBuffer (MAX_DELAY_TIME : ℕ) (allocOk : Bool) (p : PluginSimpleDelay)
    (sampleRate : ℚ) : PluginSimpleDelay :=
  let buflen := ((MAX_DELAY_TIME / 1000) * toUInt32 sampleRate) % 2 ^ 32
  if allocOk then
    { p with buflen := buflen, buffer := some (List.replicate buflen 0), writepos := 0 }
  else
    { p with buflen := 0, buffer := none }

/-- Embeds `PluginSimpleDelay::activate`:
`allocateBuffer(fs); smooth_delay->initialize(PARAM_SMOOTH_TIME, fs);`. -/
def activate (expf : ℚ → ℚ) (MAX_DELAY_TIME : ℕ) (PARAM_SMOOTH_TIME : ℚ) (allocOk : Bool)
    (p : PluginSimpleDelay) : PluginSimpleDelay :=
  let fs := p.sampleRate
  let p := allocateBuffer MAX_DELAY_TIME allocOk p fs
  { p with smooth_delay := p.smooth_delay.initialize expf PARAM_SMOOTH_TIME fs }

/-- Embeds `PluginSimpleDelay::deactivate`:
`if (buffer != nullptr) { delete[] buffer; buffer = nullptr; }`. -/
def deactivate (p : PluginSimpleDelay) : PluginSimpleDelay :=
  match p.buffer with
  | some _ => { p with buffer := none }
  | none => p

/-! ## Auxiliary definitions used to state the properties -/

/-- The state one loop iteration produces at frame `i` from storage `buf`
and delayed sample `out`. -/
def frameResult (inpL inpR : ℕ → ℚ) (i : ℕ) (st : RunState) (buf : List ℚ) (out : ℚ) :
    RunState :=
  { p := { st.p with
      smooth_delay := (st.p.smooth_delay.process st.p.delaylen).1
      buffer := some (buf.set st.p.writepos ((inpL i + inpR i) / 2 + out * st.p.feedback))
      writepos := if st.p.writepos + 1 ≥ st.p.buflen then 0 else st.p.writepos + 1 }
    outL := Function.update st.outL i (inpL i * (1 - st.p.drywetmix) + out * st.p.drywetmix)
    outR := Function.update st.outR i (inpR i * (1 - st.p.drywetmix) + out * st.p.drywetmix) }

/-- The state is one `run` can work on: the capacity is positive, the write
cursor is inside the buffer and the storage holds exactly `buflen` samples. -/
def Usable (p : PluginSimpleDelay) : Prop :=
  0 < p.buflen ∧ p.writepos < p.buflen ∧ p.buffer.map List.length = some p.buflen

instance (p : PluginSimpleDelay) : Decidable (Usable p) := by
  unfold Usable; infer_instance

/-- The delay setting stays inside the buffer: the smoother is a convex blend
(`0 ≤ a ≤ 1`, `b = 1 - a`) and both its state and its target lie in
`[0, buflen]`. -/
def DelayInRange (p : PluginSimpleDelay) : Prop :=
  0 ≤ p.smooth_delay.a ∧ p.smooth_delay.a ≤ 1 ∧ p.smooth_delay.b = 1 - p.smooth_delay.a ∧
  0 ≤ p.smooth_delay.z ∧ p.smooth_delay.z ≤ p.buflen ∧
  0 ≤ p.delaylen ∧ p.delaylen ≤ p.buflen

instance (p : PluginSimpleDelay) : Decidable (DelayInRange p) := by
  unfold DelayInRange; infer_instance

/-- The sample a delay line with lag `D` hands back at step `n`, when `w m` is
what was stored at step `m` and the line started out zeroed. -/
def wetTap (w : ℕ → ℚ) (D n : ℕ) : ℚ :=
  if D ≤ n then w (n - D) else 0

/-- A unit impulse at sample 0 followed by silence. -/
def impulse : ℕ → ℚ := fun n => if n = 0 then 1 else 0

/-- The samples an impulse leaves in a delay line with lag `D` and feedback
`f`: `f ^ k` at step `k * D`, nothing in between. -/
def echoTrain (D : ℕ) (f : ℚ) (n : ℕ) : ℚ :=
  if D ∣ n then f ^ (n / D) else 0

/-- Example state: a freshly allocated delay line of capacity `C` (zeroed
storage, write cursor 0) at 48 kHz whose smoother rests at the delay `D`. -/
def restingLine (C : ℕ) (D f mix : ℚ) : PluginSimpleDelay :=
  { sampleRate := 48000, fParams := fun _ => 0, delaylen := D, feedback := f,
    drywetmix := mix, buflen := C, writepos := 0, buffer := some (List.replicate C 0),
    smooth_delay := ⟨1 / 2, 1 / 2, D⟩ }

/-- Example state: a capacity-4 line holding four distinct samples, write
cursor 1, feedback 1/2, mix 1/4, delay 0 with the smoother at rest. -/
def sampleLine : PluginSimpleDelay :=
  { sampleRate := 48000, fParams := fun _ => 0, delaylen := 0, feedback := 1 / 2,
    drywetmix := 1 / 4, buflen := 4, writepos := 1, buffer := some [10, 20, 30, 40],
    smooth_delay := ⟨1 / 2, 1 / 2, 0⟩ }

/-- The example scenario's settings applied to `p` through the parameter
interface: delay 240 ms, feedback 0 %, mix 100 %. -/
def scenarioSettings (p : PluginSimpleDelay) : PluginSimpleDelay :=
  setParameterValue
    (setParameterValue (setParameterValue p ParamIndex.paramDelay 240)
      ParamIndex.paramFeedback 0)
    ParamIndex.paramMix 100

/-- The read position as the specification words it:
`readpos := writepos - round(smoothedDelay)`; if negative, `readpos += capacity`. -/
def specReadIndex (capacity writepos : ℕ) (smoothedDelay : ℚ) : ℤ :=
  let readpos : ℤ := (writepos : ℤ) - round smoothedDelay
  if readpos < 0 then readpos + capacity else readpos

/-- Smoother state after `k` successive calls `process(x)`. -/
def smoothState (c : CParamSmooth) (x : ℚ) : ℕ → CParamSmooth
  | 0 => c
  | k + 1 => ((smoothState c x k).process x).1

/-- Value the call number `k` (counted from 0) of `process(x)` returns: the
smoothed delay `run` uses at frame `k` of a block during which `delaylen`
is `x`. -/
def smoothed (c : CParamSmooth) (x : ℚ) (k : ℕ) : ℚ :=
  ((smoothState c x k).process x).2

/-- Loop invariant of `run` on a delay line of capacity `C` whose smoothed
delay rests at `D`, started from zeroed storage with the write cursor at 0:
where things stand once `N` frames are done, `w m` being the sample stored at
frame `m` and `c`, `x` the smoother and the target delay at the start. -/
structure DelayInv (C D : ℕ) (f mix : ℚ) (c : CParamSmooth) (x : ℚ)
    (inL inR outL0 outR0 w : ℕ → ℚ) (N : ℕ) (st : RunState) : Prop where
  buflen : st.p.buflen = C
  writepos : st.p.writepos = N % C
  feedback : st.p.feedback = f
  drywetmix : st.p.drywetmix = mix
  delaylen : st.p.delaylen = x
  smooth : st.p.smooth_delay = smoothState c x N
  storage : ∃ buf, st.p.buffer = some buf ∧ buf.length = C ∧
    (∀ m, m < N → N ≤ m + C → buf[m % C]? = some (w m)) ∧
    (∀ j, N ≤ j → j < C → buf[j]? = some 0)
  outL : ∀ n, st.outL n = if n < N then inL n * (1 - mix) + wetTap w D n * mix else outL0 n
  outR : ∀ n, st.outR n = if n < N then inR n * (1 - mix) + wetTap w D n * mix else outR0 n

/-- Smoother state after the successive calls `process(x)`, one for each `x`
of `xs` in order. -/
def processList (c : CParamSmooth) (xs : List ℚ) : CParamSmooth :=
  xs.foldl (fun c x => (c.process x).1) c

/-- A rational function with the order properties of `exp` (positive, below 1
exactly on the negatives, increasing), used where an example needs a concrete
function in the place of `exp`. -/
def expStandIn (y : ℚ) : ℚ :=
  if y < 0 then 1 / (1 - y) else 1 + y

/-- The wet sample `run` reads at frame `n` (frames counted from 0): the read
of the loop body on the state `n` frames leave. -/
def wetAt (p : PluginSimpleDelay) (inL inR outL0 outR0 : ℕ → ℚ) (n : ℕ) : Option ℚ :=
  (run p inL inR outL0 outR0 n).bind fun st =>
    st.p.buffer.bind fun buf =>
      readAt buf (readIndex st.p.buflen st.p.writepos
        (st.p.smooth_delay.process st.p.delaylen).2)

/-- The sample `run` stores into the buffer at frame `n`: the content, after
`n + 1` frames, of the cell the write cursor pointed at after `n` frames. -/
def writtenAt (p : PluginSimpleDelay) (inL inR outL0 outR0 : ℕ → ℚ) (n : ℕ) : Option ℚ :=
  (run p inL inR outL0 outR0 n).bind fun st =>
    (run p inL inR outL0 outR0 (n + 1)).bind fun st' =>
      st'.p.buffer.bind fun buf => buf[st.p.writepos]?

/-- The samples a zeroed delay line with lag `D ≥ 1` and feedback `f` stores,
frame by frame: the mono input plus `f` times the sample stored `D` frames
earlier. -/
def lineSamples (inL inR : ℕ → ℚ) (D : ℕ) (f : ℚ) (n : ℕ) : ℚ :=
  if _h : 0 < D ∧ D ≤ n then (inL n + inR n) / 2 + lineSamples inL inR D f (n - D) * f
  else (inL n + inR n) / 2
termination_by n
decreasing_by omega

/-- Example of members before construction: 48 kHz, no storage, everything
else zero. -/
def rawPlugin : PluginSimpleDelay :=
  { sampleRate := 48000, fParams := fun _ => 0, delaylen := 0, feedback := 0,
    drywetmix := 0, buflen := 0, writepos := 0, buffer := none,
    smooth_delay := ⟨0, 0, 0⟩ }

/-! ## The arithmetic of `float` -/

/-- Rounding to the nearest integer, a tie going to the even neighbour. -/
def roundHalfEven (y : ℚ) : ℤ :=
  if y - ⌊y⌋ < 1 / 2 then ⌊y⌋
  else if 1 / 2 < y - ⌊y⌋ then ⌊y⌋ + 1
  else if ⌊y⌋ % 2 = 0 then ⌊y⌋ else ⌊y⌋ + 1

/-- Rounding of a real value to binary32 (`float`), to nearest with ties to
even: the value is scaled so that its 24-bit significand is an integer, which
is rounded. The exponent is not bounded, so this is the IEEE rounding for
every value in the normal range of binary32. -/
def roundF32 (x : ℚ) : ℚ :=
  if x = 0 then 0
  else (roundHalfEven (x / 2 ^ (Int.log 2 |x| - 23)) : ℚ) * 2 ^ (Int.log 2 |x| - 23)

/-- Embeds `CParamSmooth::process` with the arithmetic of `float`:
`return z = (in * b) + (z * a);` is two binary32 products and a binary32 sum.
The argument `x` is the `float` value of `in`. -/
def CParamSmooth.processF32 (c : CParamSmooth) (x : ℚ) : CParamSmooth × ℚ :=
  let z := roundF32 (roundF32 (x * c.b) + roundF32 (c.z * c.a))
  ({ c with z := z }, z)

/-- Smoother state after `k` successive calls `process(x)` in binary32. -/
def smoothStateF32 (c : CParamSmooth) (x : ℚ) : ℕ → CParamSmooth
  | 0 => c
  | k + 1 => ((smoothStateF32 c x k).processF32 x).1

/-- The read index of one loop iteration of `run` with the arithmetic of
`float`: in `int32_t readpos = writepos - s;` the cursor is converted to
`float`, the difference is a binary32 subtraction and the conversion to
`int32_t` truncates; then `if (readpos < 0) readpos = buflen + readpos;`. -/
def readIndexF32 (buflen writepos : ℕ) (s : ℚ) : ℤ :=
  let readpos : ℤ := toInt32 (roundF32 (roundF32 (writepos : ℚ) - s))
  if readpos < 0 then (buflen : ℤ) + readpos else readpos

/-- The relative error bound of one binary32 operation, `2 ^ (-24)`. -/
def epsF32 : ℚ := 1 / 2 ^ 24

/-- Bound on the relative error the three binary32 operations of one
`process` call add up to: `2^(-24) * (2 + 2^(-24))`. -/
def kappaF32 : ℚ := epsF32 * (2 + epsF32)

/-- Example smoother: the binary32 coefficients the constructor computes for
200 ms at 48 kHz, `a = 16766239 / 2^24` and `b = 1 - a = 10977 / 2^24`, with
the state `z = 11518.951171875`. -/
def stalledSmoother : CParamSmooth :=
  { a := 16766239 / 16777216, b := 10977 / 16777216, z := 5897703 / 512 }

/-! ## Index arithmetic -/

theorem toInt32_intCast (k : ℤ) : toInt32 (k : ℚ) = k := by
  unfold toInt32
  split <;> simp

theorem toInt32_nonneg {x : ℚ} (h : 0 ≤ x) : toInt32 x = ⌊x⌋ := by
  simp [toInt32, h]

theorem toInt32_neg {x : ℚ} (h : x < 0) : toInt32 x = ⌈x⌉ := by
  simp [toInt32, not_le.mpr h]

theorem readIndex_range {C wp : ℕ} {s : ℚ} (hwp : wp < C) (h0 : 0 ≤ s) (hs : s ≤ C) :
    0 ≤ readIndex C wp s ∧ readIndex C wp s < C := by
  have hwpq : (wp : ℚ) < C := by exact_mod_cast hwp
  unfold readIndex
  by_cases hx : 0 ≤ (wp : ℚ) - s
  · rw [toInt32_nonneg hx]
    have h1 : 0 ≤ ⌊(wp : ℚ) - s⌋ := Int.floor_nonneg.mpr hx
    have h2 : ⌊(wp : ℚ) - s⌋ < (C : ℤ) := by
      rw [Int.floor_lt]; push_cast; linarith
    dsimp only
    rw [if_neg (not_lt.mpr h1)]
    exact ⟨h1, h2⟩
  · have hx : (wp : ℚ) - s < 0 := not_le.mp hx
    rw [toInt32_neg hx]
    have h1 : ⌈(wp : ℚ) - s⌉ ≤ 0 := by
      rw [Int.ceil_le]; push_cast; linarith
    have h2 : -(C : ℤ) ≤ ⌈(wp : ℚ) - s⌉ := by
      rw [Int.le_ceil_iff]; push_cast
      have : (0 : ℚ) ≤ wp := Nat.cast_nonneg _
      linarith
    have hC : (wp : ℤ) < C := by exact_mod_cast hwp
    dsimp only
    split_ifs <;> constructor <;> omega

/-- With an integral lag the read index is `writepos - lag`, wrapped once. -/
theorem readIndex_natCast (C wp L : ℕ) :
    readIndex C wp (L : ℚ) = if (wp : ℤ) - L < 0 then (C : ℤ) + ((wp : ℤ) - L) else (wp : ℤ) - L := by
  have h : ((wp : ℚ) - (L : ℚ)) = (((wp : ℤ) - (L : ℤ) : ℤ) : ℚ) := by push_cast; rfl
  unfold readIndex
  rw [h, toInt32_intCast]

theorem mod_of_decomp {n C x q : ℕ} (hx : x < C) (h : n = x + C * q) : n % C = x := by
  subst h
  rw [Nat.add_mul_mod_self_left, Nat.mod_eq_of_lt hx]

theorem succ_mod_wrap (N C : ℕ) (hC : 0 < C) :
    (if N % C + 1 ≥ C then 0 else N % C + 1) = (N + 1) % C := by
  have hlt := Nat.mod_lt N hC
  have hdm := Nat.div_add_mod N C
  split_ifs with h
  · symm
    apply Nat.mod_eq_zero_of_dvd
    refine ⟨N / C + 1, ?_⟩
    have : N % C + 1 = C := by omega
    rw [Nat.mul_succ]; omega
  · symm
    exact mod_of_decomp (q := N / C) (by omega) (by omega)

theorem readIndex_delayed {C D N : ℕ} (hDC : D < C) (hDN : D ≤ N) :
    readIndex C (N % C) (D : ℚ) = (((N - D) % C : ℕ) : ℤ) := by
  have hC : 0 < C := by omega
  have hlt := Nat.mod_lt N hC
  have hdm := Nat.div_add_mod N C
  rw [readIndex_natCast]
  by_cases hr : D ≤ N % C
  · have e : (N - D) % C = N % C - D :=
      mod_of_decomp (q := N / C) (by omega) (by omega)
    rw [e]
    split_ifs <;> omega
  · obtain ⟨q, hq⟩ : ∃ q, N / C = q + 1 := by
      rcases Nat.eq_zero_or_pos (N / C) with h0 | hpos
      · rw [h0] at hdm; omega
      · exact ⟨N / C - 1, by omega⟩
    rw [hq, Nat.mul_succ] at hdm
    have e : (N - D) % C = N % C + C - D :=
      mod_of_decomp (q := q) (by omega) (by omega)
    rw [e]
    split_ifs <;> omega

theorem readIndex_early {C D N : ℕ} (hDC : D < C) (hND : N < D) :
    readIndex C (N % C) (D : ℚ) = ((N + C - D : ℕ) : ℤ) := by
  rw [Nat.mod_eq_of_lt (by omega), readIndex_natCast]
  split_ifs <;> omega

theorem readAt_natCast (buf : List ℚ) (j : ℕ) : readAt buf (j : ℤ) = buf[j]? := by
  simp [readAt]

/-! ## The loop body and the loop -/

theorem frame_of_read {inpL inpR : ℕ → ℚ} {i : ℕ} {st : RunState} {buf : List ℚ} {out : ℚ}
    (hb : st.p.buffer = some buf)
    (ho : readAt buf (readIndex st.p.buflen st.p.writepos
      (st.p.smooth_delay.process st.p.delaylen).2) = some out)
    (hw : st.p.writepos < buf.length) :
    frame inpL inpR i st = some (frameResult inpL inpR i st buf out) := by
  unfold frame
  dsimp only
  rw [hb]
  dsimp only
  rw [ho]
  dsimp only
  rw [if_pos hw]
  rfl

theorem frame_eq_some_iff (inpL inpR : ℕ → ℚ) (i : ℕ) (st st' : RunState) :
    frame inpL inpR i st = some st' ↔
      ∃ buf out, st.p.buffer = some buf ∧
        readAt buf (readIndex st.p.buflen st.p.writepos
          (st.p.smooth_delay.process st.p.delaylen).2) = some out ∧
        st.p.writepos < buf.length ∧ st' = frameResult inpL inpR i st buf out := by
  constructor
  · intro h
    cases hb : st.p.buffer with
    | none => simp [frame, hb] at h
    | some buf =>
      cases ho : readAt buf (readIndex st.p.buflen st.p.writepos
          (st.p.smooth_delay.process st.p.delaylen).2) with
      | none => simp [frame, hb, ho] at h
      | some out =>
        by_cases hw : st.p.writepos < buf.length
        · rw [frame_of_read hb ho hw] at h
          exact ⟨buf, out, rfl, ho, hw, (Option.some.inj h).symm⟩
        · simp [frame, hb, ho, hw] at h
  · rintro ⟨buf, out, hb, ho, hw, rfl⟩
    exact frame_of_read hb ho hw

theorem runFrom_succ_last (inpL inpR : ℕ → ℚ) (n i : ℕ) (st : RunState) :
    runFrom inpL inpR (n + 1) i st =
      (runFrom inpL inpR n i st).bind (frame inpL inpR (i + n)) := by
  induction n generalizing i st with
  | zero => simp [runFrom]
  | succ n ih =>
    rw [runFrom]
    conv_rhs => rw [runFrom]
    cases h : frame inpL inpR i st with
    | none => simp
    | some st1 =>
      simp only [Option.some_bind]
      rw [ih]
      have : i + 1 + n = i + (n + 1) := by omega
      rw [this]

/-- Total correctness by invariant: an invariant that every loop iteration
re-establishes (without failing) holds after the whole loop. -/
theorem runFrom_invariant (inpL inpR : ℕ → ℚ) (Inv : ℕ → RunState → Prop)
    (n i : ℕ) (st : RunState)
    (hstep : ∀ k st, i ≤ k → k < i + n → Inv k st →
      ∃ st', frame inpL inpR k st = some st' ∧ Inv (k + 1) st')
    (h : Inv i st) :
    ∃ st', runFrom inpL inpR n i st = some st' ∧ Inv (i + n) st' := by
  induction n generalizing i st with
  | zero => exact ⟨st, rfl, h⟩
  | succ n ih =>
    obtain ⟨st1, h1, hi1⟩ := hstep i st (le_refl i) (by omega) h
    obtain ⟨st2, h2, hi2⟩ := ih (i + 1) st1
      (fun k s hk1 hk2 hk => hstep k s (by omega) (by omega) hk) hi1
    refine ⟨st2, ?_, ?_⟩
    · rw [runFrom, h1]; exact h2
    · have : i + (n + 1) = i + 1 + n := by omega
      rw [this]; exact hi2

/-- Partial correctness by invariant, for loops that may stop at an
undefined access. -/
theorem runFrom_preserves (inpL inpR : ℕ → ℚ) (P : ℕ → RunState → Prop)
    (hstep : ∀ k st st', P k st → frame inpL inpR k st = some st' → P (k + 1) st')
    (n i : ℕ) (st st' : RunState) (h : P i st) (hr : runFrom inpL inpR n i st = some st') :
    P (i + n) st' := by
  induction n generalizing i st with
  | zero =>
    simp only [runFrom, Option.some.injEq] at hr
    subst hr; exact h
  | succ n ih =>
    rw [runFrom] at hr
    cases h1 : frame inpL inpR i st with
    | none => rw [h1] at hr; exact absurd hr (by simp)
    | some st1 =>
      rw [h1] at hr
      have := ih (i + 1) st1 (hstep i st st1 h h1) hr
      have e : i + (n + 1) = i + 1 + n := by omega
      rw [e]; exact this

/-! ## A delay line at rest -/

theorem smoothed_rest (c : CParamSmooth) (x : ℚ) (hz : c.z = x) (hb : c.b = 1 - c.a) (k : ℕ) :
    smoothState c x k = c ∧ smoothed c x k = x := by
  have key : c.process x = (c, x) := by
    have : x * (1 - c.a) + x * c.a = x := by ring
    cases c
    simp only at hz hb
    subst hz hb
    simp [CParamSmooth.process, this]
  have hs : smoothState c x k = c := by
    induction k with
    | zero => rfl
    | succ k ih => rw [smoothState, ih, key]
  exact ⟨hs, by rw [smoothed, hs, key]⟩

theorem mod_ne_of_recent {m N C : ℕ} (h1 : m < N) (h2 : N + 1 ≤ m + C) : m % C ≠ N % C := by
  intro h
  have hd : (N - m) % C = 0 := Nat.sub_mod_eq_zero_of_mod_eq h.symm
  have hlt : N - m < C := by omega
  rw [Nat.mod_eq_of_lt hlt] at hd
  omega

theorem delay_line_step {C D : ℕ} {f mix : ℚ} {c : CParamSmooth} {x : ℚ}
    {inL inR outL0 outR0 w : ℕ → ℚ} (hD : 1 ≤ D) (hDC : D < C)
    (hw : ∀ n, w n = (inL n + inR n) / 2 + wetTap w D n * f)
    (N : ℕ) (hs : smoothed c x N = D) (st : RunState)
    (h : DelayInv C D f mix c x inL inR outL0 outR0 w N st) :
    ∃ st', frame inL inR N st = some st' ∧
      DelayInv C D f mix c x inL inR outL0 outR0 w (N + 1) st' := by
  obtain ⟨hbl, hwp, hf, hmix, hdl, hsm, ⟨buf, hb, hlen, hrec, hzero⟩, hoL, hoR⟩ := h
  have hC : 0 < C := by omega
  have hNC : N % C < C := Nat.mod_lt N hC
  have hproc : (st.p.smooth_delay.process st.p.delaylen).2 = (D : ℚ) := by
    rw [hsm, hdl]; exact hs
  have hread : readAt buf (readIndex st.p.buflen st.p.writepos
      (st.p.smooth_delay.process st.p.delaylen).2) = some (wetTap w D N) := by
    rw [hproc, hbl, hwp]
    by_cases hDN : D ≤ N
    · rw [readIndex_delayed hDC hDN, readAt_natCast, hrec (N - D) (by omega) (by omega)]
      simp [wetTap, hDN]
    · rw [readIndex_early hDC (by omega), readAt_natCast, hzero _ (by omega) (by omega)]
      simp [wetTap, hDN]
  refine ⟨_, frame_of_read hb hread (by rw [hwp, hlen]; exact hNC), ?_⟩
  refine ⟨hbl, ?_, hf, hmix, hdl, ?_, ?_, ?_, ?_⟩
  · show (if st.p.writepos + 1 ≥ st.p.buflen then 0 else st.p.writepos + 1) = (N + 1) % C
    rw [hwp, hbl]; exact succ_mod_wrap N C hC
  · show (st.p.smooth_delay.process st.p.delaylen).1 = _
    rw [hsm, hdl]; rfl
  · refine ⟨_, rfl, by rw [List.length_set]; exact hlen, ?_, ?_⟩
    · intro m hm1 hm2
      rw [hwp, hf, ← hw N]
      rcases Nat.lt_succ_iff_lt_or_eq.mp hm1 with hlt | heq
      · rw [List.getElem?_set_ne (mod_ne_of_recent hlt hm2).symm]
        exact hrec m hlt (by omega)
      · subst heq
        rw [List.getElem?_set_self (by rw [hlen]; exact hNC)]
    · intro j hj1 hj2
      have : N % C = N := Nat.mod_eq_of_lt (by omega)
      rw [hwp, this, List.getElem?_set_ne (by omega)]
      exact hzero j (by omega) hj2
  · intro n
    show Function.update st.outL N _ n = _
    rw [hmix]
    by_cases hn : n = N
    · subst hn; simp
    · rw [Function.update_noteq hn, hoL n]
      have : n < N + 1 ↔ n < N := by omega
      simp only [this]
  · intro n
    show Function.update st.outR N _ n = _
    rw [hmix]
    by_cases hn : n = N
    · subst hn; simp
    · rw [Function.update_noteq hn, hoR n]
      have : n < N + 1 ↔ n < N := by omega
      simp only [this]

/-- A run over `N` frames of a delay line that starts zeroed with the write
cursor at 0 and whose smoothed delay is `D` at each of the `N` frames:
the run completes and the invariant holds at `N`. -/
theorem delay_line_run {C D : ℕ} (p : PluginSimpleDelay) (inL inR outL0 outR0 w : ℕ → ℚ)
    (N : ℕ) (hD : 1 ≤ D) (hDC : D < C)
    (hbuflen : p.buflen = C) (hbuf : p.buffer = some (List.replicate C 0))
    (hwp : p.writepos = 0)
    (hs : ∀ k, k < N → smoothed p.smooth_delay p.delaylen k = D)
    (hw : ∀ n, w n = (inL n + inR n) / 2 + wetTap w D n * p.feedback) :
    ∃ st, run p inL inR outL0 outR0 N = some st ∧
      DelayInv C D p.feedback p.drywetmix p.smooth_delay p.delaylen
        inL inR outL0 outR0 w N st := by
  have hC : 0 < C := by omega
  have h0 : DelayInv C D p.feedback p.drywetmix p.smooth_delay p.delaylen
      inL inR outL0 outR0 w 0 ⟨p, outL0, outR0⟩ := by
    refine ⟨hbuflen, by simp [hwp], rfl, rfl, rfl, rfl, ?_, by simp, by simp⟩
    refine ⟨_, hbuf, by simp, by simp, ?_⟩
    intro j _ hj
    simp [List.getElem?_replicate, hj]
  obtain ⟨st, hst, hinv⟩ := runFrom_invariant inL inR
    (DelayInv C D p.feedback p.drywetmix p.smooth_delay p.delaylen inL inR outL0 outR0 w)
    N 0 ⟨p, outL0, outR0⟩
    (fun k s _ hk hi => delay_line_step hD hDC hw k (hs k (by omega)) s hi) h0
  refine ⟨st, ?_, by simpa using hinv⟩
  unfold run
  rw [if_pos (by rw [hbuflen]; exact hC)]
  exact hst

/-! ## Pure delay and echo train -/

/-- **C1** Pure delay. On a freshly allocated delay line of capacity `C > 0`
(zeroed storage, write cursor 0) with `feedback = 0`, `drywetmix = 1` and the
smoothed delay equal to an integer `D`, `1 ≤ D < C`, at every frame, `run`
completes and both output channels carry at frame `n` the mono input
`(inL[n-D] + inR[n-D]) / 2` when `n ≥ D` and `0` when `n < D`; with equal
left and right inputs the output at `n` is the input at `n - D`. -/
theorem pure_delay (C D : ℕ) (p : PluginSimpleDelay) (inL inR outL0 outR0 : ℕ → ℚ) (N : ℕ)
    (hC : 0 < C) (hD : 1 ≤ D) (hDC : D < C)
    (hbuflen : p.buflen = C) (hbuf : p.buffer = some (List.replicate C 0))
    (hwp : p.writepos = 0) (hf : p.feedback = 0) (hmix : p.drywetmix = 1)
    (hs : ∀ k, k < N → smoothed p.smooth_delay p.delaylen k = D) :
    ∃ st, run p inL inR outL0 outR0 N = some st ∧
      ∀ n, n < N →
        (D ≤ n → st.outL n = (inL (n - D) + inR (n - D)) / 2 ∧
                 st.outR n = (inL (n - D) + inR (n - D)) / 2) ∧
        (n < D → st.outL n = 0 ∧ st.outR n = 0) ∧
        (inL = inR → D ≤ n → st.outL n = inL (n - D) ∧ st.outR n = inR (n - D)) := by
  have _ := hC
  obtain ⟨st, hrun, hinv⟩ := delay_line_run p inL inR outL0 outR0
    (fun n => (inL n + inR n) / 2) N hD hDC hbuflen hbuf hwp hs
    (by intro n; rw [hf]; ring)
  refine ⟨st, hrun, ?_⟩
  intro n hn
  have hL := hinv.outL n
  have hR := hinv.outR n
  rw [if_pos hn, hmix] at hL hR
  refine ⟨?_, ?_, ?_⟩
  · intro hDn
    simp only [wetTap, if_pos hDn] at hL hR
    rw [hL, hR]; constructor <;> ring
  · intro hnD
    simp only [wetTap, if_neg (not_le.mpr hnD)] at hL hR
    rw [hL, hR]; constructor <;> ring
  · intro heq hDn
    subst heq
    simp only [wetTap, if_pos hDn] at hL hR
    rw [hL, hR]; constructor <;> ring

/-- Witness for C1: capacity 4, delay 2, a ramp on the left and a constant on
the right, 6 frames; frame 5 carries the mono mix of frame 3. -/
theorem pure_delay_witness :
    ∃ st, run (restingLine 4 2 0 1) (fun n => n) (fun _ => 1) (fun _ => 0) (fun _ => 0) 6
        = some st ∧ st.outL 5 = 2 ∧ st.outR 5 = 2 ∧ st.outL 1 = 0 := by
  obtain ⟨st, hrun, h⟩ := pure_delay 4 2 (restingLine 4 2 0 1)
    (fun n => n) (fun _ => 1) (fun _ => 0) (fun _ => 0) 6
    (by decide) (by decide) (by decide) rfl rfl rfl rfl rfl
    (fun k _ => (smoothed_rest (restingLine 4 2 0 1).smooth_delay 2 rfl
      (by norm_num [restingLine]) k).2)
  have h5 := (h 5 (by decide)).1 (by decide)
  have h1 := (h 1 (by decide)).2.1 (by decide)
  refine ⟨st, hrun, ?_, ?_, h1.1⟩
  · rw [h5.1]; norm_num
  · rw [h5.2]; norm_num

theorem echoTrain_rec (D : ℕ) (f : ℚ) (hD : 1 ≤ D) (n : ℕ) :
    echoTrain D f n = (impulse n + impulse n) / 2 + wetTap (echoTrain D f) D n * f := by
  unfold wetTap
  by_cases hDn : D ≤ n
  · have hn0 : n ≠ 0 := by omega
    rw [if_pos hDn]
    simp only [impulse, if_neg hn0]
    unfold echoTrain
    have hdvd : D ∣ n - D ↔ D ∣ n := by
      constructor
      · intro h; have := Nat.dvd_add h (dvd_refl D); rwa [Nat.sub_add_cancel hDn] at this
      · intro h; exact Nat.dvd_sub' h (dvd_refl D)
    by_cases hd : D ∣ n
    · rw [if_pos hd, if_pos (hdvd.mpr hd)]
      obtain ⟨k, rfl⟩ := hd
      have hk : 1 ≤ k := by
        rcases Nat.eq_zero_or_pos k with h0 | h0
        · subst h0; simp at hn0
        · exact h0
      obtain ⟨j, rfl⟩ : ∃ j, k = j + 1 := ⟨k - 1, by omega⟩
      have e1 : D * (j + 1) / D = j + 1 := Nat.mul_div_cancel_left _ (by omega)
      have e2 : (D * (j + 1) - D) / D = j := by
        rw [Nat.mul_succ, Nat.add_sub_cancel]; exact Nat.mul_div_cancel_left _ (by omega)
      rw [e1, e2]; ring
    · rw [if_neg hd, if_neg (fun h => hd (hdvd.mp h))]; ring
  · rw [if_neg hDn]
    unfold echoTrain
    by_cases hn0 : n = 0
    · subst hn0; simp [impulse]
    · have hd : ¬ D ∣ n := fun h => by
        have := Nat.le_of_dvd (by omega) h; omega
      simp [impulse, hn0, hd]

/-- **C3** Echo train. On a freshly allocated delay line of capacity `C > 0`
with `drywetmix = 1`, feedback `f` and the smoothed delay equal to an integer
`D`, `1 ≤ D < C`, at every frame, a unit impulse on both channels at frame 0
followed by silence makes `run` output `f ^ (k - 1)` on both channels at
frame `n = k * D` for every `k ≥ 1`, and `0` at every frame that is not a
positive multiple of `D`: successive taps have ratio `f`. -/
theorem echo_train (C D : ℕ) (f : ℚ) (p : PluginSimpleDelay) (outL0 outR0 : ℕ → ℚ) (N : ℕ)
    (hC : 0 < C) (hD : 1 ≤ D) (hDC : D < C)
    (hbuflen : p.buflen = C) (hbuf : p.buffer = some (List.replicate C 0))
    (hwp : p.writepos = 0) (hf : p.feedback = f) (hmix : p.drywetmix = 1)
    (hs : ∀ k, k < N → smoothed p.smooth_delay p.delaylen k = D) :
    ∃ st, run p impulse impulse outL0 outR0 N = some st ∧
      (∀ k, 1 ≤ k → k * D < N →
        st.outL (k * D) = f ^ (k - 1) ∧ st.outR (k * D) = f ^ (k - 1)) ∧
      (∀ k, 1 ≤ k → (k + 1) * D < N → st.outL ((k + 1) * D) = f * st.outL (k * D)) ∧
      (∀ n, n < N → (¬ ∃ k, 1 ≤ k ∧ n = k * D) → st.outL n = 0 ∧ st.outR n = 0) := by
  have _ := hC
  obtain ⟨st, hrun, hinv⟩ := delay_line_run p impulse impulse outL0 outR0
    (echoTrain D f) N hD hDC hbuflen hbuf hwp hs
    (by intro n; rw [hf]; exact echoTrain_rec D f hD n)
  have hout : ∀ n, n < N → st.outL n = wetTap (echoTrain D f) D n ∧
      st.outR n = wetTap (echoTrain D f) D n := by
    intro n hn
    have hL := hinv.outL n
    have hR := hinv.outR n
    rw [if_pos hn, hmix] at hL hR
    rw [hL, hR]; constructor <;> ring
  have htap : ∀ k, 1 ≤ k → wetTap (echoTrain D f) D (k * D) = f ^ (k - 1) := by
    intro k hk
    obtain ⟨j, rfl⟩ : ∃ j, k = j + 1 := ⟨k - 1, by omega⟩
    have hle : D ≤ (j + 1) * D := Nat.le_mul_of_pos_left D (by omega)
    have e : (j + 1) * D - D = j * D := by rw [Nat.succ_mul, Nat.add_sub_cancel]
    simp only [wetTap, if_pos hle, e, echoTrain, if_pos (Dvd.intro_left j rfl),
      Nat.mul_div_cancel j (show 0 < D by omega), Nat.add_sub_cancel]
  refine ⟨st, hrun, ?_, ?_, ?_⟩
  · intro k hk hkN
    rw [(hout _ hkN).1, (hout _ hkN).2, htap k hk]
    exact ⟨rfl, rfl⟩
  · intro k hk hkN
    have hkN' : k * D < N := by
      have : k * D ≤ (k + 1) * D := Nat.mul_le_mul_right D (by omega)
      omega
    rw [(hout _ hkN).1, (hout _ hkN').1, htap k hk, htap (k + 1) (by omega)]
    obtain ⟨j, rfl⟩ : ∃ j, k = j + 1 := ⟨k - 1, by omega⟩
    simp only [Nat.add_sub_cancel]
    ring
  · intro n hn hnot
    rw [(hout n hn).1, (hout n hn).2]
    have : wetTap (echoTrain D f) D n = 0 := by
      unfold wetTap
      split_ifs with hDn
      · unfold echoTrain
        rw [if_neg]
        rintro ⟨j, hj⟩
        exact hnot ⟨j + 1, by omega, by rw [Nat.succ_mul, Nat.mul_comm j D, ← hj]; omega⟩
      · rfl
    exact ⟨this, this⟩

/-- Witness for C3: capacity 4, delay 2, feedback 1/2, 10 frames: the taps at
frames 2, 4 and 6 are 1, 1/2 and 1/4, and frame 3 is silent. -/
theorem echo_train_witness :
    ∃ st, run (restingLine 4 2 (1 / 2) 1) impulse impulse (fun _ => 0) (fun _ => 0) 10
        = some st ∧ st.outL 2 = 1 ∧ st.outL 4 = 1 / 2 ∧ st.outR 6 = 1 / 4 ∧ st.outL 3 = 0 := by
  obtain ⟨st, hrun, htaps, _, hsilent⟩ := echo_train 4 2 (1 / 2) (restingLine 4 2 (1 / 2) 1)
    (fun _ => 0) (fun _ => 0) 10
    (by decide) (by decide) (by decide) rfl rfl rfl rfl rfl
    (fun k _ => (smoothed_rest (restingLine 4 2 (1 / 2) 1).smooth_delay 2 rfl
      (by norm_num [restingLine]) k).2)
  have h2 := (htaps 1 (by decide) (by decide)).1
  have h4 := (htaps 2 (by decide) (by decide)).1
  have h6 := (htaps 3 (by decide) (by decide)).2
  have h3 := (hsilent 3 (by decide) (by rintro ⟨k, _, hk⟩; omega)).1
  norm_num at h2 h4 h6
  exact ⟨st, hrun, h2, h4, h6, h3⟩

/-! ## Runs on arbitrary usable states -/

theorem runFrom_append (inpL inpR : ℕ → ℚ) (j m i : ℕ) (st : RunState) :
    runFrom inpL inpR (j + m) i st =
      (runFrom inpL inpR j i st).bind (runFrom inpL inpR m (i + j)) := by
  induction j generalizing i st with
  | zero => simp [runFrom]
  | succ j ih =>
    have e : j + 1 + m = (j + m) + 1 := by omega
    rw [e, runFrom, runFrom]
    cases h : frame inpL inpR i st with
    | none => simp
    | some st1 =>
      simp only [Option.some_bind]
      rw [ih]
      have : i + 1 + j = i + (j + 1) := by omega
      rw [this]

theorem process_in_range {p : PluginSimpleDelay} (h : DelayInRange p) :
    0 ≤ (p.smooth_delay.process p.delaylen).2 ∧
      (p.smooth_delay.process p.delaylen).2 ≤ p.buflen := by
  obtain ⟨ha0, ha1, hb, hz0, hz1, hx0, hx1⟩ := h
  show 0 ≤ p.delaylen * p.smooth_delay.b + p.smooth_delay.z * p.smooth_delay.a ∧
    p.delaylen * p.smooth_delay.b + p.smooth_delay.z * p.smooth_delay.a ≤ p.buflen
  rw [hb]
  have h1a : 0 ≤ 1 - p.smooth_delay.a := by linarith
  constructor
  · have := mul_nonneg hx0 h1a
    have := mul_nonneg hz0 ha0
    linarith
  · have := mul_le_mul_of_nonneg_right hx1 h1a
    have := mul_le_mul_of_nonneg_right hz1 ha0
    linarith

theorem readAt_in_range (buf : List ℚ) {r : ℤ} (h0 : 0 ≤ r) (h1 : r < buf.length) :
    ∃ v, readAt buf r = some v ∧ buf[r.toNat]? = some v := by
  have hlt : r.toNat < buf.length := by omega
  refine ⟨buf[r.toNat], ?_, List.getElem?_eq_getElem hlt⟩
  rw [readAt, if_pos h0, List.getElem?_eq_getElem hlt]

/-- On a usable state whose delay setting is inside the buffer, one loop
iteration completes and leaves such a state. -/
theorem frame_total (inpL inpR : ℕ → ℚ) (i : ℕ) (st : RunState)
    (hu : Usable st.p) (hr : DelayInRange st.p) :
    ∃ st', frame inpL inpR i st = some st' ∧ Usable st'.p ∧ DelayInRange st'.p := by
  obtain ⟨hC, hwp, hbuf⟩ := hu
  obtain ⟨buf, hb, hlen⟩ : ∃ buf, st.p.buffer = some buf ∧ buf.length = st.p.buflen := by
    cases hb : st.p.buffer with
    | none => rw [hb] at hbuf; simp at hbuf
    | some buf => rw [hb] at hbuf; exact ⟨buf, rfl, by simpa using hbuf⟩
  have hs := process_in_range hr
  have hidx := readIndex_range hwp hs.1 hs.2
  obtain ⟨out, hout, _⟩ := readAt_in_range buf hidx.1 (by rw [hlen]; exact hidx.2)
  refine ⟨_, frame_of_read hb hout (by rw [hlen]; exact hwp), ?_, ?_⟩
  · refine ⟨hC, ?_, ?_⟩
    · show (if st.p.writepos + 1 ≥ st.p.buflen then 0 else st.p.writepos + 1) < st.p.buflen
      split_ifs <;> omega
    · show Option.map List.length (some (buf.set _ _)) = some st.p.buflen
      simp [hlen]
  · obtain ⟨ha0, ha1, hb', _, _, hx0, hx1⟩ := hr
    exact ⟨ha0, ha1, hb', hs.1, hs.2, hx0, hx1⟩

theorem run_total (p : PluginSimpleDelay) (inpL inpR outL0 outR0 : ℕ → ℚ) (N : ℕ)
    (hu : Usable p) (hr : DelayInRange p) :
    ∃ st, run p inpL inpR outL0 outR0 N = some st := by
  obtain ⟨st, hst, _⟩ := runFrom_invariant inpL inpR
    (fun _ s => Usable s.p ∧ DelayInRange s.p) N 0 ⟨p, outL0, outR0⟩
    (fun k s _ _ hk => frame_total inpL inpR k s hk.1 hk.2) ⟨hu, hr⟩
  exact ⟨st, by unfold run; rw [if_pos hu.1]; exact hst⟩

/-- **C2** Dry passthrough. With `buflen > 0` and `drywetmix = 0`, whatever
the feedback, the delay setting and the buffer content: every completed `run`
has written `outL[i] = inL[i]` and `outR[i] = inR[i]` for every frame `i`; and
on a usable state whose delay setting lies inside the buffer `run` does
complete. -/
theorem dry_passthrough (p : PluginSimpleDelay) (inL inR outL0 outR0 : ℕ → ℚ) (N : ℕ)
    (hbl : 0 < p.buflen) (hmix : p.drywetmix = 0) :
    (∀ st, run p inL inR outL0 outR0 N = some st →
      ∀ i, i < N → st.outL i = inL i ∧ st.outR i = inR i) ∧
    (Usable p → DelayInRange p →
      ∃ st, run p inL inR outL0 outR0 N = some st ∧
        ∀ i, i < N → st.outL i = inL i ∧ st.outR i = inR i) := by
  have part : ∀ st, run p inL inR outL0 outR0 N = some st →
      ∀ i, i < N → st.outL i = inL i ∧ st.outR i = inR i := by
    intro st hrun
    unfold run at hrun
    rw [if_pos hbl] at hrun
    have := runFrom_preserves inL inR
      (fun k s => s.p.drywetmix = 0 ∧ ∀ i, i < k → s.outL i = inL i ∧ s.outR i = inR i)
      (by
        intro k s s' ⟨hm, hout⟩ hfr
        obtain ⟨buf, out, _, _, _, rfl⟩ := (frame_eq_some_iff inL inR k s s').mp hfr
        refine ⟨hm, ?_⟩
        intro i hi
        show Function.update s.outL k _ i = inL i ∧ Function.update s.outR k _ i = inR i
        rw [hm]
        by_cases hik : i = k
        · subst hik; simp
        · rw [Function.update_noteq hik, Function.update_noteq hik]
          exact hout i (by omega))
      N 0 ⟨p, outL0, outR0⟩ st ⟨hmix, by intro i hi; omega⟩ hrun
    intro i hi
    exact this.2 i (by omega)
  refine ⟨part, ?_⟩
  intro hu hr
  obtain ⟨st, hst⟩ := run_total p inL inR outL0 outR0 N hu hr
  exact ⟨st, hst, part st hst⟩

/-- Witness for C2: a capacity-4 line with feedback 1/2 and delay 2, fully dry. -/
theorem dry_passthrough_witness :
    ∃ st, run (restingLine 4 2 (1 / 2) 0) (fun n => n) (fun _ => 1) (fun _ => 0) (fun _ => 0) 6
        = some st ∧ ∀ i, i < 6 → st.outL i = (i : ℚ) ∧ st.outR i = 1 :=
  (dry_passthrough (restingLine 4 2 (1 / 2) 0) (fun n => n) (fun _ => 1) (fun _ => 0)
    (fun _ => 0) 6 (by decide) rfl).2
    ⟨by decide, by decide, rfl⟩ (by norm_num [DelayInRange, restingLine])

/-! ## Read index and parameter mapping -/

/-- **C5** Circular indexing. For every capacity `C > 0`, write cursor
`writepos < C` and integer lag `L` with `0 ≤ L < C`, the read index `run`
computes is `writepos - L`, plus `C` if that is negative, and lies in
`[0, C)`; the read from storage of `C` samples is therefore defined. -/
theorem circular_indexing (C writepos : ℕ) (L : ℤ)
    (hC : 0 < C) (hwp : writepos < C) (hL0 : 0 ≤ L) (hLC : L < C) :
    readIndex C writepos (L : ℚ) =
        (if (writepos : ℤ) - L < 0 then (writepos : ℤ) - L + C else (writepos : ℤ) - L) ∧
      0 ≤ readIndex C writepos (L : ℚ) ∧ readIndex C writepos (L : ℚ) < C ∧
      ∀ buf : List ℚ, buf.length = C → ∃ v, readAt buf (readIndex C writepos (L : ℚ)) = some v := by
  have _ := hC
  have hr := @readIndex_range C writepos (L : ℚ) hwp
    (by exact_mod_cast hL0) (by exact_mod_cast hLC.le)
  refine ⟨?_, hr.1, hr.2, ?_⟩
  · obtain ⟨l, rfl⟩ := Int.eq_ofNat_of_zero_le hL0
    have := readIndex_natCast C writepos l
    simp only [Int.cast_natCast] at *
    rw [this]
    split_ifs <;> omega
  · intro buf hlen
    obtain ⟨v, hv, _⟩ := readAt_in_range buf hr.1 (by rw [hlen]; exact hr.2)
    exact ⟨v, hv⟩

/-- Witness for C5: capacity 4, write cursor 1, lag 3 wraps to index 2. -/
theorem circular_indexing_witness :
    readIndex 4 1 ((3 : ℤ) : ℚ) = 2 ∧ 0 ≤ readIndex 4 1 ((3 : ℤ) : ℚ) ∧
      readIndex 4 1 ((3 : ℤ) : ℚ) < 4 := by
  have h := circular_indexing 4 1 3 (by decide) (by decide) (by decide) (by decide)
  refine ⟨?_, h.2.1, h.2.2.1⟩
  rw [h.1]; decide

/-- Counterexample to C6 as stated: setting the mix parameter to 100 on the
example state does not give `100/201`; it gives `200/201`. -/
theorem mix_100_counterexample :
    (setParameterValue (restingLine 4 2 0 0) ParamIndex.paramMix 100).drywetmix = 200 / 201 ∧
    (setParameterValue (restingLine 4 2 0 0) ParamIndex.paramMix 100).drywetmix ≠ 100 / 201 := by
  constructor <;> norm_num [setParameterValue]

/-- **C6** (amended) Setting the mix parameter to 100,
`setParameterValue(paramMix, 100)`, yields `drywetmix == 200/201`. -/
theorem mix_100 (p : PluginSimpleDelay) :
    (setParameterValue p ParamIndex.paramMix 100).drywetmix = 200 / 201 := by
  norm_num [setParameterValue]

/-- **C7** Mix mapping. For every `m`, `setParameterValue(paramMix, m)` sets
`drywetmix = (m + 100) / 201` and leaves `delaylen` and `feedback` unchanged;
`m = -100` gives exactly 0, and for `m` in `[-100, 100]` the result satisfies
`0 ≤ drywetmix ≤ 200/201 < 1`: fully wet is unreachable. -/
theorem mix_mapping (p : PluginSimpleDelay) (m : ℚ) :
    (setParameterValue p ParamIndex.paramMix m).drywetmix = (m + 100) / 201 ∧
    (setParameterValue p ParamIndex.paramMix m).delaylen = p.delaylen ∧
    (setParameterValue p ParamIndex.paramMix m).feedback = p.feedback ∧
    (setParameterValue p ParamIndex.paramMix (-100)).drywetmix = 0 ∧
    (-100 ≤ m → m ≤ 100 →
      0 ≤ (setParameterValue p ParamIndex.paramMix m).drywetmix ∧
      (setParameterValue p ParamIndex.paramMix m).drywetmix ≤ 200 / 201 ∧
      (setParameterValue p ParamIndex.paramMix m).drywetmix < 1) := by
  refine ⟨rfl, rfl, rfl, by norm_num [setParameterValue], ?_⟩
  intro h1 h2
  show 0 ≤ (m + 100) / 201 ∧ (m + 100) / 201 ≤ 200 / 201 ∧ (m + 100) / 201 < 1
  refine ⟨?_, ?_, ?_⟩
  · apply div_nonneg <;> linarith
  · exact div_le_div_of_nonneg_right (by linarith) (by norm_num)
  · rw [div_lt_one (by norm_num)]; linarith

/-- Witness for C7: the top of the parameter range, `m = 100`. -/
theorem mix_mapping_witness :
    (setParameterValue (restingLine 4 2 0 0) ParamIndex.paramMix 100).drywetmix
        = (100 + 100) / 201 ∧
      (setParameterValue (restingLine 4 2 0 0) ParamIndex.paramMix 100).drywetmix < 1 :=
  ⟨(mix_mapping (restingLine 4 2 0 0) 100).1,
   ((mix_mapping (restingLine 4 2 0 0) 100).2.2.2.2 (by norm_num) (by norm_num)).2.2⟩

/-- **C8** Per-sample step. On a usable state (storage of `buflen > 0`
samples, `writepos < buflen`, read index in range) one loop iteration on the
frame `(left, right)` completes, sets `outL = left * (1 - drywetmix) + wet *
drywetmix` and `outR = right * (1 - drywetmix) + wet * drywetmix`, and stores
`(left + right) / 2 + wet * feedback` at the old `writepos`, changing no other
buffer cell; `wet` is the buffer value at the read index before this
iteration's write, also when the read index equals `writepos`. -/
theorem per_sample_step (inpL inpR : ℕ → ℚ) (i : ℕ) (st : RunState) (buf : List ℚ)
    (hb : st.p.buffer = some buf) (hlen : buf.length = st.p.buflen)
    (hC : 0 < st.p.buflen) (hwp : st.p.writepos < st.p.buflen)
    (hr0 : 0 ≤ readIndex st.p.buflen st.p.writepos
      (st.p.smooth_delay.process st.p.delaylen).2)
    (hr1 : readIndex st.p.buflen st.p.writepos
      (st.p.smooth_delay.process st.p.delaylen).2 < st.p.buflen) :
    ∃ wet st' buf',
      buf[(readIndex st.p.buflen st.p.writepos
        (st.p.smooth_delay.process st.p.delaylen).2).toNat]? = some wet ∧
      frame inpL inpR i st = some st' ∧
      st'.outL i = inpL i * (1 - st.p.drywetmix) + wet * st.p.drywetmix ∧
      st'.outR i = inpR i * (1 - st.p.drywetmix) + wet * st.p.drywetmix ∧
      st'.p.buffer = some buf' ∧ buf'.length = buf.length ∧
      buf'[st.p.writepos]? = some ((inpL i + inpR i) / 2 + wet * st.p.feedback) ∧
      (∀ j, j ≠ st.p.writepos → buf'[j]? = buf[j]?) ∧
      (readIndex st.p.buflen st.p.writepos (st.p.smooth_delay.process st.p.delaylen).2
          = (st.p.writepos : ℤ) → buf[st.p.writepos]? = some wet) := by
  have _ := hC
  obtain ⟨wet, hread, hget⟩ := readAt_in_range buf hr0 (by rw [hlen]; exact hr1)
  have hw : st.p.writepos < buf.length := by rw [hlen]; exact hwp
  refine ⟨wet, _, _, hget, frame_of_read hb hread hw, ?_, ?_, rfl, ?_, ?_, ?_, ?_⟩
  · show Function.update st.outL i _ i = _
    simp
  · show Function.update st.outR i _ i = _
    simp
  · simp
  · exact List.getElem?_set_self hw
  · intro j hj
    exact List.getElem?_set_ne (Ne.symm hj)
  · intro heq
    rw [heq] at hget
    simpa using hget

/-- Witness for C8: on `sampleLine` the smoothed delay is 0, so the read index
is the write cursor itself: the old cell value 20 is the wet sample, and the
cell then receives `(3 + 5) / 2 + 20 / 2 = 14`. -/
theorem per_sample_step_witness :
    ∃ st', frame (fun _ => 3) (fun _ => 5) 0 ⟨sampleLine, fun _ => 0, fun _ => 0⟩ = some st' ∧
      st'.outL 0 = 29 / 4 ∧ st'.outR 0 = 35 / 4 ∧
      ∃ buf', st'.p.buffer = some buf' ∧ buf'[1]? = some 14 := by
  have hidx : readIndex sampleLine.buflen sampleLine.writepos
      (sampleLine.smooth_delay.process sampleLine.delaylen).2 = 1 := by
    norm_num [sampleLine, CParamSmooth.process, readIndex, toInt32]
  obtain ⟨wet, st', buf', hwet, hfr, hL, hR, hbuf, _, hcell, _, _⟩ :=
    per_sample_step (fun _ => 3) (fun _ => 5) 0 ⟨sampleLine, fun _ => 0, fun _ => 0⟩
      [10, 20, 30, 40] rfl rfl (by decide) (by decide)
      (by rw [hidx]; decide) (by rw [hidx]; decide)
  rw [hidx] at hwet
  have hw : wet = 20 := by simpa using hwet.symm
  subst hw
  refine ⟨st', hfr, ?_, ?_, buf', hbuf, ?_⟩
  · rw [hL]; norm_num [sampleLine]
  · rw [hR]; norm_num [sampleLine]
  · rw [show (1 : ℕ) = sampleLine.writepos from rfl, hcell]; norm_num [sampleLine]

/-- The read index in exact arithmetic: `writepos - ⌈s⌉` when `s ≤ writepos`,
and `writepos - ⌊s⌋`, plus `C` when negative, when `s > writepos`; it lies in
`[0, C)` and is `writepos - round(s)`, plus `C` when negative, for an integer
`s`. -/
theorem readIndex_formula (C writepos : ℕ) (s : ℚ)
    (hC : 0 < C) (hwp : writepos < C) (hs0 : 0 ≤ s) (hsC : s < C) :
    readIndex C writepos s =
        (if s ≤ writepos then (writepos : ℤ) - ⌈s⌉
         else if (writepos : ℤ) - ⌊s⌋ < 0 then (writepos : ℤ) - ⌊s⌋ + C
         else (writepos : ℤ) - ⌊s⌋) ∧
      (0 ≤ readIndex C writepos s ∧ readIndex C writepos s < C) ∧
      ((∃ k : ℤ, s = k) → readIndex C writepos s = specReadIndex C writepos s) := by
  have _ := hC
  have hfl : ⌊(writepos : ℚ) - s⌋ = (writepos : ℤ) - ⌈s⌉ := by
    have : (writepos : ℚ) - s = ((writepos : ℤ) : ℚ) + (-s) := by push_cast; ring
    rw [this, Int.floor_int_add, Int.floor_neg]; ring
  have hce : ⌈(writepos : ℚ) - s⌉ = (writepos : ℤ) - ⌊s⌋ := by
    have : (writepos : ℚ) - s = (-s) + ((writepos : ℤ) : ℚ) := by push_cast; ring
    rw [this, Int.ceil_add_int, Int.ceil_neg]; ring
  have hmain : readIndex C writepos s =
      (if s ≤ writepos then (writepos : ℤ) - ⌈s⌉
       else if (writepos : ℤ) - ⌊s⌋ < 0 then (writepos : ℤ) - ⌊s⌋ + C
       else (writepos : ℤ) - ⌊s⌋) := by
    unfold readIndex
    by_cases hle : s ≤ writepos
    · have hx : 0 ≤ (writepos : ℚ) - s := by linarith
      rw [toInt32_nonneg hx, hfl, if_pos hle]
      dsimp only
      have : 0 ≤ ⌊(writepos : ℚ) - s⌋ := Int.floor_nonneg.mpr hx
      rw [hfl] at this
      rw [if_neg (not_lt.mpr this)]
    · have hx : (writepos : ℚ) - s < 0 := by linarith [not_le.mp hle]
      rw [toInt32_neg hx, hce, if_neg hle]
      dsimp only
      split_ifs <;> ring
  refine ⟨hmain, readIndex_range hwp hs0 hsC.le, ?_⟩
  rintro ⟨k, rfl⟩
  rw [hmain]
  unfold specReadIndex
  simp only [Int.ceil_intCast, Int.floor_intCast, round_intCast]
  have hk : (k : ℚ) ≤ writepos ↔ k ≤ (writepos : ℤ) := by
    rw [← Int.cast_natCast (R := ℚ) writepos, Int.cast_le]
  simp only [hk]
  split_ifs <;> omega

/-! ## The write cursor -/

theorem run_prefix (p : PluginSimpleDelay) (inL inR outL0 outR0 : ℕ → ℚ) (j k : ℕ)
    (hjk : j ≤ k) (st : RunState) (h : run p inL inR outL0 outR0 k = some st) :
    ∃ stj, run p inL inR outL0 outR0 j = some stj := by
  unfold run at h ⊢
  by_cases hb : p.buflen > 0
  · rw [if_pos hb] at h ⊢
    obtain ⟨m, rfl⟩ : ∃ m, k = j + m := ⟨k - j, by omega⟩
    rw [runFrom_append] at h
    cases hj : runFrom inL inR j 0 ⟨p, outL0, outR0⟩ with
    | none => rw [hj] at h; simp at h
    | some stj => exact ⟨stj, rfl⟩
  · rw [if_neg hb]; exact ⟨_, rfl⟩

theorem run_cursor (p : PluginSimpleDelay) (inL inR outL0 outR0 : ℕ → ℚ) (k : ℕ)
    (hC : 0 < p.buflen) (hwp : p.writepos < p.buflen)
    (st : RunState) (h : run p inL inR outL0 outR0 k = some st) :
    st.p.buflen = p.buflen ∧ st.p.writepos = (p.writepos + k) % p.buflen := by
  unfold run at h
  rw [if_pos hC] at h
  have := runFrom_preserves inL inR
    (fun j s => s.p.buflen = p.buflen ∧ s.p.writepos = (p.writepos + j) % p.buflen)
    (by
      intro j s s' ⟨hbl, hw⟩ hfr
      obtain ⟨buf, out, _, _, _, rfl⟩ := (frame_eq_some_iff inL inR j s s').mp hfr
      refine ⟨hbl, ?_⟩
      show (if s.p.writepos + 1 ≥ s.p.buflen then 0 else s.p.writepos + 1) = _
      rw [hw, hbl]
      exact succ_mod_wrap (p.writepos + j) p.buflen hC)
    k 0 ⟨p, outL0, outR0⟩ st ⟨rfl, (Nat.mod_eq_of_lt hwp).symm⟩ h
  simpa using this

/-- **C10** Write cursor invariant. From a state with `buflen > 0` and
`writepos < buflen`, a `run` that processes `k` frames leaves the write cursor
at `(writepos_0 + k) mod buflen`, and after every one of its frames the cursor
is `(writepos_0 + j) mod buflen < buflen`; on a usable state whose delay
setting lies inside the buffer such a run does complete. -/
theorem write_cursor (p : PluginSimpleDelay) (inL inR outL0 outR0 : ℕ → ℚ) (k : ℕ)
    (hC : 0 < p.buflen) (hwp : p.writepos < p.buflen) :
    (∀ st, run p inL inR outL0 outR0 k = some st →
      st.p.writepos = (p.writepos + k) % p.buflen ∧
      ∀ j, j ≤ k → ∃ stj, run p inL inR outL0 outR0 j = some stj ∧
        stj.p.buflen = p.buflen ∧
        stj.p.writepos = (p.writepos + j) % p.buflen ∧ stj.p.writepos < stj.p.buflen) ∧
    (Usable p → DelayInRange p →
      ∃ st, run p inL inR outL0 outR0 k = some st ∧
        st.p.writepos = (p.writepos + k) % p.buflen ∧ st.p.writepos < st.p.buflen) := by
  have part : ∀ j st, run p inL inR outL0 outR0 j = some st →
      st.p.buflen = p.buflen ∧
      st.p.writepos = (p.writepos + j) % p.buflen ∧ st.p.writepos < st.p.buflen := by
    intro j st h
    have hc := run_cursor p inL inR outL0 outR0 j hC hwp st h
    refine ⟨hc.1, hc.2, ?_⟩
    rw [hc.1, hc.2]
    exact Nat.mod_lt _ hC
  constructor
  · intro st h
    refine ⟨(part k st h).2.1, ?_⟩
    intro j hj
    obtain ⟨stj, hstj⟩ := run_prefix p inL inR outL0 outR0 j k hj st h
    exact ⟨stj, hstj, part j stj hstj⟩
  · intro hu hr
    obtain ⟨st, hst⟩ := run_total p inL inR outL0 outR0 k hu hr
    exact ⟨st, hst, (part k st hst).2⟩

/-- Witness for C10: six frames on `sampleLine` (capacity 4, cursor 1) leave
the cursor at `(1 + 6) mod 4 = 3`. -/
theorem write_cursor_witness :
    ∃ st, run sampleLine (fun n => n) (fun _ => 1) (fun _ => 0) (fun _ => 0) 6 = some st ∧
      st.p.writepos = 3 := by
  obtain ⟨st, hst, hw, _⟩ := (write_cursor sampleLine (fun n => n) (fun _ => 1) (fun _ => 0)
    (fun _ => 0) 6 (by decide) (by decide)).2
    ⟨by decide, by decide, rfl⟩ (by norm_num [DelayInRange, sampleLine])
  exact ⟨st, hst, hw⟩

/-! ## The example scenario -/

theorem wetTap_impulse (D n : ℕ) :
    wetTap (fun m => (impulse m + impulse m) / 2) D n = if n = D then 1 else 0 := by
  unfold wetTap impulse
  by_cases hDn : D ≤ n
  · rw [if_pos hDn]
    by_cases hn : n = D
    · subst hn; simp
    · have : n - D ≠ 0 := by omega
      simp [this, hn]
  · have : n ≠ D := by omega
    simp [hDn, this]

/-- The example scenario on a zeroed line of capacity `C > 11520` at 48 kHz:
the settings the parameter interface produces and every output sample. -/
theorem scenario_outputs (p : PluginSimpleDelay) (C : ℕ) (outL0 outR0 : ℕ → ℚ) (N : ℕ)
    (hsr : p.sampleRate = 48000) (hC : 11520 < C)
    (hbuflen : p.buflen = C) (hbuf : p.buffer = some (List.replicate C 0))
    (hwp : p.writepos = 0)
    (hs : ∀ k, k < N → smoothed p.smooth_delay 11520 k = 11520) :
    (scenarioSettings p).delaylen = 11520 ∧ (scenarioSettings p).feedback = 0 ∧
    (scenarioSettings p).drywetmix = 200 / 201 ∧
    ∃ st, run (scenarioSettings p) impulse impulse outL0 outR0 N = some st ∧
      ∀ n, n < N →
        st.outL n = (if n = 0 then 1 / 201 else if n = 11520 then 200 / 201 else 0) ∧
        st.outR n = (if n = 0 then 1 / 201 else if n = 11520 then 200 / 201 else 0) := by
  have hdl : (scenarioSettings p).delaylen = 11520 := by
    show (240 : ℚ) / 1000 * p.sampleRate = 11520
    rw [hsr]; norm_num
  have hf : (scenarioSettings p).feedback = 0 := by
    show (0 : ℚ) / 100 = 0
    norm_num
  have hmix : (scenarioSettings p).drywetmix = 200 / 201 := by
    show ((100 : ℚ) + 100) / 201 = 200 / 201
    norm_num
  refine ⟨hdl, hf, hmix, ?_⟩
  obtain ⟨st, hrun, hinv⟩ := delay_line_run (C := C) (D := 11520) (scenarioSettings p)
    impulse impulse outL0 outR0 (fun m => (impulse m + impulse m) / 2) N
    (by decide) hC hbuflen hbuf hwp
    (by
      intro k hk
      rw [hdl]
      have := hs k hk
      show smoothed p.smooth_delay 11520 k = ((11520 : ℕ) : ℚ)
      rw [this]; norm_num)
    (by intro n; rw [hf]; ring)
  refine ⟨st, hrun, ?_⟩
  intro n hn
  have hL := hinv.outL n
  have hR := hinv.outR n
  rw [if_pos hn, hmix, wetTap_impulse] at hL hR
  rw [hL, hR]
  by_cases h0 : n = 0
  · subst h0; norm_num [impulse]
  · by_cases h1 : n = 11520
    · subst h1; norm_num [impulse]
    · simp [impulse, h0, h1]

/-- Counterexample to C4 as stated: on the zeroed 240000-sample line at
48 kHz with the smoother resting at 11520, the scenario's settings (mix
parameter 100 %) give output `1/201`, not 0, at sample 0 and `200/201`,
not 1, at sample 11520. -/
theorem example_scenario_counterexample :
    ∃ st, run (scenarioSettings (restingLine 240000 11520 0 0)) impulse impulse
        (fun _ => 0) (fun _ => 0) 11521 = some st ∧
      st.outL 0 = 1 / 201 ∧ st.outL 0 ≠ 0 ∧
      st.outL 11520 = 200 / 201 ∧ st.outL 11520 ≠ 1 := by
  obtain ⟨_, _, _, st, hrun, hout⟩ := scenario_outputs (restingLine 240000 11520 0 0) 240000
    (fun _ => 0) (fun _ => 0) 11521 rfl (by decide) rfl rfl rfl
    (fun k _ => (smoothed_rest (restingLine 240000 11520 0 0).smooth_delay 11520 rfl
      (by norm_num [restingLine]) k).2)
  have h0 := (hout 0 (by decide)).1
  have h1 := (hout 11520 (by decide)).1
  rw [if_pos rfl] at h0
  rw [if_neg (by decide), if_pos rfl] at h1
  refine ⟨st, hrun, h0, ?_, h1, ?_⟩
  · rw [h0]; norm_num
  · rw [h1]; norm_num

/-- **C4** (amended) Example scenario. At sampling rate 48000, setting the
delay parameter to 240 ms gives `delaylen = 11520` samples; setting the
feedback parameter to 0 % gives feedback 0 and setting the mix parameter to
100 % gives `drywetmix = 200/201`. With these, a zeroed buffer holding more
than 11520 samples and the smoothed delay already equal to 11520, a unit
impulse on both channels at sample 0 followed by silence produces output
`200/201` at sample 11520, `1/201` at sample 0 and exactly 0 at every other
output sample. -/
theorem example_scenario (p : PluginSimpleDelay) (C : ℕ) (outL0 outR0 : ℕ → ℚ) (N : ℕ)
    (hsr : p.sampleRate = 48000) (hC : 11520 < C)
    (hbuflen : p.buflen = C) (hbuf : p.buffer = some (List.replicate C 0))
    (hwp : p.writepos = 0)
    (hs : ∀ k, k < N → smoothed p.smooth_delay 11520 k = 11520) :
    (setParameterValue p ParamIndex.paramDelay 240).delaylen = 11520 ∧
    (scenarioSettings p).delaylen = 11520 ∧ (scenarioSettings p).feedback = 0 ∧
    (scenarioSettings p).drywetmix = 200 / 201 ∧
    ∃ st, run (scenarioSettings p) impulse impulse outL0 outR0 N = some st ∧
      ∀ n, n < N →
        st.outL n = (if n = 0 then 1 / 201 else if n = 11520 then 200 / 201 else 0) ∧
        st.outR n = (if n = 0 then 1 / 201 else if n = 11520 then 200 / 201 else 0) :=
  ⟨(scenario_outputs p C outL0 outR0 N hsr hC hbuflen hbuf hwp hs).1,
   scenario_outputs p C outL0 outR0 N hsr hC hbuflen hbuf hwp hs⟩

/-- Witness for C4: the 240000-sample line at 48 kHz, 12000 frames. -/
theorem example_scenario_witness :
    ∃ st, run (scenarioSettings (restingLine 240000 11520 0 0)) impulse impulse
        (fun _ => 0) (fun _ => 0) 12000 = some st ∧
      st.outL 11520 = 200 / 201 ∧ st.outR 11999 = 0 := by
  obtain ⟨_, _, _, _, st, hrun, hout⟩ := example_scenario (restingLine 240000 11520 0 0) 240000
    (fun _ => 0) (fun _ => 0) 12000 rfl (by decide) rfl rfl rfl
    (fun k _ => (smoothed_rest (restingLine 240000 11520 0 0).smooth_delay 11520 rfl
      (by norm_num [restingLine]) k).2)
  have h1 := (hout 11520 (by decide)).1
  have h2 := (hout 11999 (by decide)).2
  rw [if_neg (by decide), if_pos rfl] at h1
  rw [if_neg (by decide), if_neg (by decide)] at h2
  exact ⟨st, hrun, h1, h2⟩

/-! ## The parameter smoother -/

theorem process_z (c : CParamSmooth) (x : ℚ) :
    (c.process x).1.a = c.a ∧ (c.process x).1.b = c.b ∧
      (c.process x).1.z = x * c.b + c.z * c.a ∧ (c.process x).2 = x * c.b + c.z * c.a :=
  ⟨rfl, rfl, rfl, rfl⟩

theorem smoothState_coeff (c : CParamSmooth) (x : ℚ) (n : ℕ) :
    (smoothState c x n).a = c.a ∧ (smoothState c x n).b = c.b := by
  induction n with
  | zero => exact ⟨rfl, rfl⟩
  | succ n ih => exact ⟨ih.1, ih.2⟩

theorem smoothState_closed (c : CParamSmooth) (x : ℚ) (hb : c.b = 1 - c.a) (n : ℕ) :
    (smoothState c x n).z = x + c.a ^ n * (c.z - x) := by
  induction n with
  | zero => simp [smoothState]
  | succ n ih =>
    show x * (smoothState c x n).b + (smoothState c x n).z * (smoothState c x n).a = _
    rw [(smoothState_coeff c x n).1, (smoothState_coeff c x n).2, ih, hb]
    ring

theorem smoothed_eq_state (c : CParamSmooth) (x : ℚ) (n : ℕ) :
    smoothed c x n = (smoothState c x (n + 1)).z := rfl

/-- The recurrence `z := x * b + z * a` in exact arithmetic: after `n` calls
`z_n = x + a^n * (z0 - x)`, which converges to `x` and lies between `z0` and
`x`. -/
theorem smoothState_exact_law (c : CParamSmooth) (x : ℚ)
    (ha0 : 0 < c.a) (ha1 : c.a < 1) (hb : c.b = 1 - c.a) :
    (∀ n, (smoothState c x n).z = x + c.a ^ n * (c.z - x)) ∧
    (∀ n, smoothed c x n = x + c.a ^ (n + 1) * (c.z - x)) ∧
    (∀ ε : ℚ, 0 < ε → ∃ N, ∀ n, N ≤ n → |(smoothState c x n).z - x| < ε) ∧
    (∀ n, min c.z x ≤ (smoothState c x n).z ∧ (smoothState c x n).z ≤ max c.z x) := by
  have hcl := smoothState_closed c x hb
  refine ⟨hcl, fun n => by rw [smoothed_eq_state, hcl], ?_, ?_⟩
  · intro ε hε
    have hpos : 0 < |c.z - x| + 1 := by positivity
    obtain ⟨N, hN⟩ := exists_pow_lt_of_lt_one (div_pos hε hpos) ha1
    refine ⟨N, fun n hn => ?_⟩
    rw [hcl n]
    have e : x + c.a ^ n * (c.z - x) - x = c.a ^ n * (c.z - x) := by ring
    rw [e, abs_mul, abs_of_nonneg (pow_nonneg ha0.le n)]
    have h1 : c.a ^ n ≤ c.a ^ N := pow_le_pow_of_le_one ha0.le ha1.le hn
    have h2 : c.a ^ n * |c.z - x| ≤ c.a ^ N * |c.z - x| :=
      mul_le_mul_of_nonneg_right h1 (abs_nonneg _)
    have h3 : c.a ^ N * (|c.z - x| + 1) < ε := by
      rwa [lt_div_iff₀ hpos] at hN
    have h4 : 0 ≤ c.a ^ N := pow_nonneg ha0.le N
    nlinarith
  · intro n
    rw [hcl n]
    have hp0 : 0 ≤ c.a ^ n := pow_nonneg ha0.le n
    have hp1 : c.a ^ n ≤ 1 := pow_le_one₀ ha0.le ha1.le
    rcases le_total c.z x with h | h
    · rw [min_eq_left h, max_eq_right h]
      constructor <;> nlinarith
    · rw [min_eq_right h, max_eq_left h]
      constructor <;> nlinarith

theorem processList_coeff (c : CParamSmooth) (xs : List ℚ) :
    (processList c xs).a = c.a ∧ (processList c xs).b = c.b := by
  induction xs generalizing c with
  | nil => exact ⟨rfl, rfl⟩
  | cons x t ih => exact ih (c.process x).1

/-- The smoother state stays in every interval that holds its start value and
all the inputs. -/
theorem processList_bounds (c : CParamSmooth) (xs : List ℚ) (lo hi : ℚ)
    (ha0 : 0 ≤ c.a) (ha1 : c.a ≤ 1) (hb : c.b = 1 - c.a)
    (hz : lo ≤ c.z ∧ c.z ≤ hi) (hx : ∀ x ∈ xs, lo ≤ x ∧ x ≤ hi) :
    lo ≤ (processList c xs).z ∧ (processList c xs).z ≤ hi := by
  induction xs generalizing c with
  | nil => exact hz
  | cons x t ih =>
    have hx0 := hx x (List.mem_cons_self x t)
    have h1a : 0 ≤ 1 - c.a := by linarith
    refine ih (c.process x).1 ha0 ha1 hb ?_ (fun y hy => hx y (List.mem_cons_of_mem x hy))
    show lo ≤ x * c.b + c.z * c.a ∧ x * c.b + c.z * c.a ≤ hi
    rw [hb]
    constructor
    · nlinarith [mul_nonneg (sub_nonneg.mpr hx0.1) h1a, mul_nonneg (sub_nonneg.mpr hz.1) ha0]
    · nlinarith [mul_nonneg (sub_nonneg.mpr hx0.2) h1a, mul_nonneg (sub_nonneg.mpr hz.2) ha0]

theorem foldl_min_le (xs : List ℚ) (m : ℚ) :
    xs.foldl min m ≤ m ∧ ∀ x ∈ xs, xs.foldl min m ≤ x := by
  induction xs generalizing m with
  | nil => exact ⟨le_refl m, fun x hx => absurd hx (List.not_mem_nil x)⟩
  | cons y t ih =>
    have h := ih (min m y)
    refine ⟨le_trans h.1 (min_le_left m y), ?_⟩
    intro x hx
    rcases List.mem_cons.mp hx with rfl | hxt
    · exact le_trans h.1 (min_le_right m x)
    · exact h.2 x hxt

theorem le_foldl_max (xs : List ℚ) (m : ℚ) :
    m ≤ xs.foldl max m ∧ ∀ x ∈ xs, x ≤ xs.foldl max m := by
  induction xs generalizing m with
  | nil => exact ⟨le_refl m, fun x hx => absurd hx (List.not_mem_nil x)⟩
  | cons y t ih =>
    have h := ih (max m y)
    refine ⟨le_trans (le_max_left m y) h.1, ?_⟩
    intro x hx
    rcases List.mem_cons.mp hx with rfl | hxt
    · exact le_trans (le_max_right m x) h.1
    · exact h.2 x hxt

theorem construct_fresh (expf : ℚ → ℚ) (t sr : ℚ) :
    (CParamSmooth.construct expf t sr).b = 1 - (CParamSmooth.construct expf t sr).a ∧
      (CParamSmooth.construct expf t sr).z = 0 :=
  ⟨rfl, rfl⟩

theorem construct_exponent_neg (t sr : ℚ) (ht : 0 < t) (hsr : 0 < sr) :
    -TWO_PI / (t * 0.001 * sr) < 0 := by
  have hd : 0 < t * 0.001 * sr := by positivity
  have hp : 0 < TWO_PI := by norm_num [TWO_PI]
  exact div_neg_of_neg_of_pos (by linarith) hd

theorem construct_unit (expf : ℚ → ℚ) (hexp : ∀ y, y < 0 → 0 < expf y ∧ expf y < 1)
    (t sr : ℚ) (ht : 0 < t) (hsr : 0 < sr) :
    0 < (CParamSmooth.construct expf t sr).a ∧ (CParamSmooth.construct expf t sr).a < 1 :=
  hexp _ (construct_exponent_neg t sr ht hsr)

/-- Counterexample to C12 as stated: a fresh smoother (`z = 0`) with
`a = b = 1/2` fed the single input 1 ends at `z = 1/2`, below the smallest
input supplied; and so does every smoother constructed with positive smoothing
time and sampling rate, whatever value in `(0, 1)` the exponential takes. -/
theorem smoother_range_counterexample :
    (processList ⟨1 / 2, 1 / 2, 0⟩ [1]).z = 1 / 2 ∧
    (processList ⟨1 / 2, 1 / 2, 0⟩ [1]).z < [1].foldl min 1 ∧
    ∀ expf : ℚ → ℚ, (∀ y, y < 0 → 0 < expf y ∧ expf y < 1) →
      (processList (CParamSmooth.construct expf 200 48000) [1]).z < 1 := by
  refine ⟨by norm_num [processList, CParamSmooth.process],
    by norm_num [processList, CParamSmooth.process], ?_⟩
  intro expf hexp
  have h := construct_unit expf hexp 200 48000 (by norm_num) (by norm_num)
  show 1 * (CParamSmooth.construct expf 200 48000).b + (CParamSmooth.construct expf 200 48000).z *
    (CParamSmooth.construct expf 200 48000).a < 1
  rw [(construct_fresh expf 200 48000).1, (construct_fresh expf 200 48000).2]
  linarith [h.1]

/-- **C12** (amended) Smoother range bound. For a freshly constructed smoother
(`0 < a < 1`, `a + b = 1`, `z = 0`) and every sequence of inputs, after the
process calls `z` lies within the closed interval from the smallest to the
largest of 0 (the start value of `z`) and the inputs supplied so far; a
smoother constructed with positive smoothing time and sampling rate is such a
smoother when `exp` maps the negatives into `(0, 1)`. -/
theorem smoother_range (c : CParamSmooth) (xs : List ℚ)
    (ha0 : 0 < c.a) (ha1 : c.a < 1) (hab : c.a + c.b = 1) (hz : c.z = 0) :
    xs.foldl min 0 ≤ (processList c xs).z ∧ (processList c xs).z ≤ xs.foldl max 0 ∧
    ∀ expf : ℚ → ℚ, (∀ y, y < 0 → 0 < expf y ∧ expf y < 1) →
      ∀ t sr : ℚ, 0 < t → 0 < sr →
        xs.foldl min 0 ≤ (processList (CParamSmooth.construct expf t sr) xs).z ∧
        (processList (CParamSmooth.construct expf t sr) xs).z ≤ xs.foldl max 0 := by
  have key : ∀ d : CParamSmooth, 0 < d.a → d.a < 1 → d.b = 1 - d.a → d.z = 0 →
      xs.foldl min 0 ≤ (processList d xs).z ∧ (processList d xs).z ≤ xs.foldl max 0 := by
    intro d h0 h1 hb hz
    exact processList_bounds d xs _ _ h0.le h1.le hb
      (by rw [hz]; exact ⟨(foldl_min_le xs 0).1, (le_foldl_max xs 0).1⟩)
      (fun x hx => ⟨(foldl_min_le xs 0).2 x hx, (le_foldl_max xs 0).2 x hx⟩)
  have h := key c ha0 ha1 (by linarith) hz
  refine ⟨h.1, h.2, ?_⟩
  intro expf hexp t sr ht hsr
  have hu := construct_unit expf hexp t sr ht hsr
  exact key _ hu.1 hu.2 (construct_fresh expf t sr).1 (construct_fresh expf t sr).2

/-- Witness for C12: `a = b = 1/2`, inputs 4 then 2: `z` ends at 2, inside
`[0, 4]`. -/
theorem smoother_range_witness :
    (0 : ℚ) ≤ (processList ⟨1 / 2, 1 / 2, 0⟩ [4, 2]).z ∧
      (processList ⟨1 / 2, 1 / 2, 0⟩ [4, 2]).z ≤ 4 := by
  have h := smoother_range ⟨1 / 2, 1 / 2, 0⟩ [4, 2] (by norm_num) (by norm_num)
    (by norm_num) rfl
  have e1 : ([4, 2] : List ℚ).foldl min 0 = 0 := by norm_num [List.foldl]
  have e2 : ([4, 2] : List ℚ).foldl max 0 = 4 := by norm_num [List.foldl]
  rw [e1] at h
  rw [e2] at h
  exact ⟨h.1, h.2.1⟩

theorem expStandIn_neg (y : ℚ) (hy : y < 0) : 0 < expStandIn y ∧ expStandIn y < 1 := by
  have h1 : 0 < 1 - y := by linarith
  unfold expStandIn
  rw [if_pos hy]
  refine ⟨by positivity, ?_⟩
  rw [div_lt_one h1]
  linarith

theorem expStandIn_pos (y : ℚ) (hy : 0 < y) : 1 < expStandIn y := by
  unfold expStandIn
  rw [if_neg (not_lt.mpr hy.le)]
  linarith

/-- Counterexample to C16 as stated: with smoothing time `-1` (not positive)
and sampling rate 48000 the constructor still produces a smoother, and its
coefficient `a` is above 1 for every `exp` that maps the positives above 1;
with the rational stand-in for `exp` it is `a > 1`, `b < 0`. -/
theorem smoother_construction_counterexample :
    ((-1 : ℚ) ≤ 0) ∧
    (∀ expf : ℚ → ℚ, (∀ y, 0 < y → 1 < expf y) →
      1 < (CParamSmooth.construct expf (-1) 48000).a) ∧
    ¬ (0 < (CParamSmooth.construct expStandIn (-1) 48000).a ∧
        (CParamSmooth.construct expStandIn (-1) 48000).a < 1) := by
  have hpos : (0 : ℚ) < -TWO_PI / (-1 * 0.001 * 48000) := by norm_num [TWO_PI]
  refine ⟨by norm_num, fun expf hexp => hexp _ hpos, ?_⟩
  intro h
  have := expStandIn_pos _ hpos
  exact absurd h.2 (not_lt.mpr this.le)

/-- **C16** (amended) Smoother construction validates nothing: for every
smoothing time and sampling rate the constructor produces a smoother with
`b = 1 - a` and `z = 0`. When both arguments are positive and `exp` maps the
negatives into `(0, 1)`, the smoother has `0 < a < 1`; when exactly one of
them is negative and `exp` maps the positives above 1, it has `a > 1`, so
keeping the arguments positive is left to the caller. -/
theorem smoother_construction (expf : ℚ → ℚ) (t sr : ℚ) :
    (CParamSmooth.construct expf t sr).b = 1 - (CParamSmooth.construct expf t sr).a ∧
    (CParamSmooth.construct expf t sr).z = 0 ∧
    ((∀ y, y < 0 → 0 < expf y ∧ expf y < 1) → 0 < t → 0 < sr →
      0 < (CParamSmooth.construct expf t sr).a ∧ (CParamSmooth.construct expf t sr).a < 1) ∧
    ((∀ y, 0 < y → 1 < expf y) → t * sr < 0 →
      1 < (CParamSmooth.construct expf t sr).a) := by
  refine ⟨rfl, rfl, fun hexp ht hsr => construct_unit expf hexp t sr ht hsr, ?_⟩
  intro hexp hneg
  apply hexp
  have hd : t * 0.001 * sr < 0 := by
    have : t * 0.001 * sr = 0.001 * (t * sr) := by ring
    rw [this]
    exact mul_neg_of_pos_of_neg (by norm_num) hneg
  have hp : 0 < TWO_PI := by norm_num [TWO_PI]
  exact div_pos_of_neg_of_neg (by linarith) hd

/-- Witness for C16: smoothing time 200 ms at 48 kHz with the rational
stand-in for `exp` gives a coefficient inside `(0, 1)`. -/
theorem smoother_construction_witness :
    0 < (CParamSmooth.construct expStandIn 200 48000).a ∧
      (CParamSmooth.construct expStandIn 200 48000).a < 1 :=
  (smoother_construction expStandIn 200 48000).2.2.1 expStandIn_neg (by norm_num) (by norm_num)

/-! ## Index safety and feedback stability -/

theorem frame_buflen {inpL inpR : ℕ → ℚ} {i : ℕ} {st st' : RunState}
    (h : frame inpL inpR i st = some st') : st'.p.buflen = st.p.buflen := by
  obtain ⟨buf, out, _, _, _, rfl⟩ := (frame_eq_some_iff inpL inpR i st st').mp h
  rfl

/-- A run on a usable state whose delay setting lies inside the buffer
completes and leaves such a state, of the same capacity. -/
theorem run_in_range (p : PluginSimpleDelay) (inpL inpR outL0 outR0 : ℕ → ℚ) (N : ℕ)
    (hu : Usable p) (hr : DelayInRange p) :
    ∃ st, run p inpL inpR outL0 outR0 N = some st ∧ Usable st.p ∧ DelayInRange st.p ∧
      st.p.buflen = p.buflen := by
  obtain ⟨st, hst, h⟩ := runFrom_invariant inpL inpR
    (fun _ s => Usable s.p ∧ DelayInRange s.p ∧ s.p.buflen = p.buflen) N 0 ⟨p, outL0, outR0⟩
    (fun k s _ _ hk => by
      obtain ⟨s', hs', hu', hr'⟩ := frame_total inpL inpR k s hk.1 hk.2.1
      exact ⟨s', hs', hu', hr', by rw [frame_buflen hs']; exact hk.2.2⟩)
    ⟨hu, hr, rfl⟩
  exact ⟨st, by unfold run; rw [if_pos hu.1]; exact hst, h⟩

/-- **C17** Index safety under smoothing. On storage of capacity
`C = buflen > 0` with `writepos < C`, smoother coefficients `0 < a < 1`,
`b = 1 - a`, smoother state `0 ≤ z ≤ C` and target `0 ≤ delaylen ≤ C` (the
full capacity included), `run` completes, and at every frame the smoother
state stays in `[0, C]`, the smoothed delay lies in `[0, C]` and the read
index, the truncation of `writepos - z` wrapped once, lies in `[0, C)` and
reads a defined sample. -/
theorem index_safety (p : PluginSimpleDelay) (inL inR outL0 outR0 : ℕ → ℚ) (N : ℕ)
    (hu : Usable p)
    (ha0 : 0 < p.smooth_delay.a) (ha1 : p.smooth_delay.a < 1)
    (hb : p.smooth_delay.b = 1 - p.smooth_delay.a)
    (hz0 : 0 ≤ p.smooth_delay.z) (hz1 : p.smooth_delay.z ≤ p.buflen)
    (hd0 : 0 ≤ p.delaylen) (hd1 : p.delaylen ≤ p.buflen) :
    (∃ st, run p inL inR outL0 outR0 N = some st) ∧
    ∀ j, ∃ stj, run p inL inR outL0 outR0 j = some stj ∧
      stj.p.writepos < p.buflen ∧
      0 ≤ stj.p.smooth_delay.z ∧ stj.p.smooth_delay.z ≤ p.buflen ∧
      0 ≤ (stj.p.smooth_delay.process stj.p.delaylen).2 ∧
      (stj.p.smooth_delay.process stj.p.delaylen).2 ≤ p.buflen ∧
      0 ≤ readIndex p.buflen stj.p.writepos (stj.p.smooth_delay.process stj.p.delaylen).2 ∧
      readIndex p.buflen stj.p.writepos (stj.p.smooth_delay.process stj.p.delaylen).2
        < p.buflen ∧
      ∃ wet, wetAt p inL inR outL0 outR0 j = some wet := by
  have hr : DelayInRange p := ⟨ha0.le, ha1.le, hb, hz0, hz1, hd0, hd1⟩
  refine ⟨(run_in_range p inL inR outL0 outR0 N hu hr).imp fun _ h => h.1, ?_⟩
  intro j
  obtain ⟨stj, hrun, huj, hrj, hbl⟩ := run_in_range p inL inR outL0 outR0 j hu hr
  have hs := process_in_range hrj
  have hidx := readIndex_range huj.2.1 hs.1 hs.2
  rw [hbl] at hs hidx
  obtain ⟨buf, hbuf, hlen⟩ : ∃ buf, stj.p.buffer = some buf ∧ buf.length = p.buflen := by
    have h3 := huj.2.2
    cases hb' : stj.p.buffer with
    | none => rw [hb'] at h3; simp at h3
    | some buf => rw [hb'] at h3; exact ⟨buf, rfl, by rw [← hbl]; simpa using h3⟩
  obtain ⟨wet, hwet, _⟩ := readAt_in_range buf hidx.1 (by rw [hlen]; exact hidx.2)
  refine ⟨stj, hrun, by rw [← hbl]; exact huj.2.1, hrj.2.2.2.1, by rw [← hbl]; exact hrj.2.2.2.2.1,
    hs.1, hs.2, hidx.1, hidx.2, wet, ?_⟩
  unfold wetAt
  rw [hrun]
  simp only [Option.some_bind, hbuf, hbl]
  exact hwet

/-- Witness for C17: `sampleLine` retargeted to the full capacity 4: after
three frames the smoothed delay is still inside `[0, 4]` and the read is
defined. -/
theorem index_safety_witness :
    ∃ wet, wetAt { sampleLine with delaylen := 4 } (fun n => n) (fun _ => 1)
      (fun _ => 0) (fun _ => 0) 3 = some wet := by
  obtain ⟨_, h⟩ := index_safety { sampleLine with delaylen := 4 } (fun n => n) (fun _ => 1)
    (fun _ => 0) (fun _ => 0) 3 ⟨by decide, by decide, rfl⟩
    (by norm_num [sampleLine]) (by norm_num [sampleLine]) (by norm_num [sampleLine])
    (by norm_num [sampleLine]) (by norm_num [sampleLine]) (by norm_num [sampleLine])
    (by norm_num [sampleLine])
  obtain ⟨_, _, _, _, _, _, _, _, _, hw⟩ := h 3
  exact hw

theorem readAt_mem {buf : List ℚ} {r : ℤ} {v : ℚ} (h : readAt buf r = some v) : v ∈ buf := by
  unfold readAt at h
  split_ifs at h
  exact List.getElem?_mem h

theorem feedback_bound {f M : ℚ} (hf0 : 0 ≤ f) (hf1 : f < 1)
    {l r out : ℚ} (hl : |l| ≤ M) (hr : |r| ≤ M) (ho : |out| ≤ M / (1 - f)) :
    |(l + r) / 2 + out * f| ≤ M / (1 - f) := by
  have h1f : 0 < 1 - f := by linarith
  have hB : M + M / (1 - f) * f = M / (1 - f) := by field_simp; ring
  have hmono : |(l + r) / 2| ≤ M := by
    rw [abs_le] at hl hr ⊢
    constructor <;> linarith [hl.1, hl.2, hr.1, hr.2]
  have hfb : |out * f| ≤ M / (1 - f) * f := by
    rw [abs_mul, abs_of_nonneg hf0]
    exact mul_le_mul_of_nonneg_right ho hf0
  calc |(l + r) / 2 + out * f| ≤ |(l + r) / 2| + |out * f| := abs_add _ _
    _ ≤ M + M / (1 - f) * f := add_le_add hmono hfb
    _ = M / (1 - f) := hB

/-- Every cell of the buffer stays within `M / (1 - f)` over a completed run
with inputs within `M` and feedback `f` in `[0, 1)`. -/
theorem run_cells_bounded (p : PluginSimpleDelay) (inL inR outL0 outR0 : ℕ → ℚ) (f M : ℚ)
    (buf0 : List ℚ) (hf0 : 0 ≤ f) (hf1 : f < 1)
    (hin : ∀ i, |inL i| ≤ M ∧ |inR i| ≤ M)
    (hfb : p.feedback = f) (hbuf : p.buffer = some buf0)
    (hcells : ∀ v ∈ buf0, |v| ≤ M / (1 - f))
    (j : ℕ) (stj : RunState) (hrun : run p inL inR outL0 outR0 j = some stj) :
    ∃ buf, stj.p.buffer = some buf ∧ ∀ v ∈ buf, |v| ≤ M / (1 - f) := by
  unfold run at hrun
  by_cases hbl : p.buflen > 0
  · rw [if_pos hbl] at hrun
    have := runFrom_preserves inL inR
      (fun _ s => s.p.feedback = f ∧ ∃ buf, s.p.buffer = some buf ∧ ∀ v ∈ buf, |v| ≤ M / (1 - f))
      (by
        intro k s s' ⟨hfs, buf, hb, hc⟩ hfr
        obtain ⟨buf', out, hb', hread, _, rfl⟩ := (frame_eq_some_iff inL inR k s s').mp hfr
        rw [hb] at hb'
        obtain rfl := Option.some.inj hb'
        refine ⟨hfs, _, rfl, ?_⟩
        intro v hv
        rcases List.mem_or_eq_of_mem_set hv with hmem | heq
        · exact hc v hmem
        · rw [heq, hfs]
          exact feedback_bound hf0 hf1 (hin k).1 (hin k).2 (hc out (readAt_mem hread)))
      j 0 ⟨p, outL0, outR0⟩ stj ⟨hfb, buf0, hbuf, hcells⟩ hrun
    exact this.2
  · rw [if_neg hbl] at hrun
    obtain rfl := Option.some.inj hrun
    exact ⟨buf0, hbuf, hcells⟩

/-- **C13** Feedback stability. With feedback `f` in `[0, 1)`, inputs bounded
by `M ≥ 0` in absolute value on both channels and every cell of the buffer
initially within `M / (1 - f)`: over a run of `N` frames that completes (every
read index in range), after every frame each buffer cell and each wet sample
read is still within `M / (1 - f)` in absolute value. -/
theorem feedback_stability (p : PluginSimpleDelay) (inL inR outL0 outR0 : ℕ → ℚ) (f M : ℚ)
    (buf0 : List ℚ) (N : ℕ) (st : RunState)
    (hf0 : 0 ≤ f) (hf1 : f < 1) (hM : 0 ≤ M)
    (hin : ∀ i, |inL i| ≤ M ∧ |inR i| ≤ M)
    (hfb : p.feedback = f) (hbuf : p.buffer = some buf0)
    (hcells : ∀ v ∈ buf0, |v| ≤ M / (1 - f))
    (hrun : run p inL inR outL0 outR0 N = some st) :
    ∀ j, j ≤ N → ∃ stj buf, run p inL inR outL0 outR0 j = some stj ∧
      stj.p.buffer = some buf ∧ (∀ v ∈ buf, |v| ≤ M / (1 - f)) ∧
      ∀ wet, wetAt p inL inR outL0 outR0 j = some wet → |wet| ≤ M / (1 - f) := by
  have _ := hM
  intro j hj
  obtain ⟨stj, hstj⟩ := run_prefix p inL inR outL0 outR0 j N hj st hrun
  obtain ⟨buf, hb, hc⟩ := run_cells_bounded p inL inR outL0 outR0 f M buf0 hf0 hf1 hin hfb hbuf
    hcells j stj hstj
  refine ⟨stj, buf, hstj, hb, hc, ?_⟩
  intro wet hwet
  unfold wetAt at hwet
  rw [hstj] at hwet
  simp only [Option.some_bind, hb] at hwet
  exact hc wet (readAt_mem hwet)

/-- Witness for C13: the unit impulse (`M = 1`) on a zeroed capacity-4 line
with delay 2 and feedback 1/2: after 10 frames every cell is within
`1 / (1 - 1/2) = 2`. -/
theorem feedback_stability_witness :
    ∃ st buf, run (restingLine 4 2 (1 / 2) 1) impulse impulse (fun _ => 0) (fun _ => 0) 10
        = some st ∧ st.p.buffer = some buf ∧ ∀ v ∈ buf, |v| ≤ (2 : ℚ) := by
  obtain ⟨st, hst⟩ := run_total (restingLine 4 2 (1 / 2) 1) impulse impulse (fun _ => 0)
    (fun _ => 0) 10 ⟨by decide, by decide, rfl⟩ (by norm_num [DelayInRange, restingLine])
  have himp : ∀ i, |impulse i| ≤ (1 : ℚ) ∧ |impulse i| ≤ (1 : ℚ) := by
    intro i
    unfold impulse
    split_ifs <;> norm_num
  obtain ⟨stj, buf, hrun, hb, hc, _⟩ := feedback_stability (restingLine 4 2 (1 / 2) 1)
    impulse impulse (fun _ => 0) (fun _ => 0) (1 / 2) 1 (List.replicate 4 0) 10 st
    (by norm_num) (by norm_num) (by norm_num) himp rfl rfl
    (by
      intro v hv
      rw [List.eq_of_mem_replicate hv]
      norm_num)
    hst 10 (le_refl 10)
  refine ⟨stj, buf, hrun, hb, ?_⟩
  intro v hv
  have := hc v hv
  norm_num at this
  exact this

/-! ## Zero delay -/

theorem lineSamples_rec (inL inR : ℕ → ℚ) (D : ℕ) (f : ℚ) (hD : 0 < D) (n : ℕ) :
    lineSamples inL inR D f n =
      (inL n + inR n) / 2 + wetTap (lineSamples inL inR D f) D n * f := by
  rw [lineSamples]
  unfold wetTap
  by_cases h : D ≤ n
  · rw [dif_pos ⟨hD, h⟩, if_pos h]
  · rw [dif_neg (fun hh => h hh.2), if_neg h]
    ring

/-- One loop iteration re-establishes the delay-line invariant whenever the
sample it reads is the tap of the invariant. -/
theorem delay_line_step_of_read {C D : ℕ} {f mix : ℚ} {c : CParamSmooth} {x : ℚ}
    {inL inR outL0 outR0 w : ℕ → ℚ} (hC : 0 < C)
    (hw : ∀ n, w n = (inL n + inR n) / 2 + wetTap w D n * f)
    (N : ℕ) (st : RunState)
    (h : DelayInv C D f mix c x inL inR outL0 outR0 w N st)
    (hread : ∀ buf, st.p.buffer = some buf →
      readAt buf (readIndex st.p.buflen st.p.writepos
        (st.p.smooth_delay.process st.p.delaylen).2) = some (wetTap w D N)) :
    ∃ st', frame inL inR N st = some st' ∧
      DelayInv C D f mix c x inL inR outL0 outR0 w (N + 1) st' := by
  obtain ⟨hbl, hwp, hf, hmix, hdl, hsm, ⟨buf, hb, hlen, hrec, hzero⟩, hoL, hoR⟩ := h
  have hNC : N % C < C := Nat.mod_lt N hC
  refine ⟨_, frame_of_read hb (hread buf hb) (by rw [hwp, hlen]; exact hNC), ?_⟩
  refine ⟨hbl, ?_, hf, hmix, hdl, ?_, ?_, ?_, ?_⟩
  · show (if st.p.writepos + 1 ≥ st.p.buflen then 0 else st.p.writepos + 1) = (N + 1) % C
    rw [hwp, hbl]; exact succ_mod_wrap N C hC
  · show (st.p.smooth_delay.process st.p.delaylen).1 = _
    rw [hsm, hdl]; rfl
  · refine ⟨_, rfl, by rw [List.length_set]; exact hlen, ?_, ?_⟩
    · intro m hm1 hm2
      rw [hwp, hf, ← hw N]
      rcases Nat.lt_succ_iff_lt_or_eq.mp hm1 with hlt | heq
      · rw [List.getElem?_set_ne (mod_ne_of_recent hlt hm2).symm]
        exact hrec m hlt (by omega)
      · subst heq
        rw [List.getElem?_set_self (by rw [hlen]; exact hNC)]
    · intro j hj1 hj2
      have : N % C = N := Nat.mod_eq_of_lt (by omega)
      rw [hwp, this, List.getElem?_set_ne (by omega)]
      exact hzero j (by omega) hj2
  · intro n
    show Function.update st.outL N _ n = _
    rw [hmix]
    by_cases hn : n = N
    · subst hn; simp
    · rw [Function.update_noteq hn, hoL n]
      have : n < N + 1 ↔ n < N := by omega
      simp only [this]
  · intro n
    show Function.update st.outR N _ n = _
    rw [hmix]
    by_cases hn : n = N
    · subst hn; simp
    · rw [Function.update_noteq hn, hoR n]
      have : n < N + 1 ↔ n < N := by omega
      simp only [this]

theorem readIndex_zero (C wp : ℕ) : readIndex C wp 0 = (wp : ℤ) := by
  have h := readIndex_natCast C wp 0
  simp only [Nat.cast_zero, sub_zero] at h
  rw [h, if_neg (by omega)]

/-- With the smoothed delay at 0 the loop body reads the cell under the write
cursor: the tap of a line of lag `C`. -/
theorem delay_inv_read_zero {C : ℕ} {f mix : ℚ} {c : CParamSmooth} {x : ℚ}
    {inL inR outL0 outR0 w : ℕ → ℚ} (hC : 0 < C) (N : ℕ) (hs : smoothed c x N = 0)
    (st : RunState) (h : DelayInv C C f mix c x inL inR outL0 outR0 w N st) :
    ∀ buf, st.p.buffer = some buf →
      readAt buf (readIndex st.p.buflen st.p.writepos
        (st.p.smooth_delay.process st.p.delaylen).2) = some (wetTap w C N) := by
  obtain ⟨hbl, hwp, _, _, hdl, hsm, ⟨buf, hb, _, hrec, hzero⟩, _, _⟩ := h
  intro buf' hb'
  rw [hb] at hb'
  obtain rfl := Option.some.inj hb'
  have hproc : (st.p.smooth_delay.process st.p.delaylen).2 = 0 := by
    rw [hsm, hdl]; exact hs
  rw [hproc, hbl, hwp, readIndex_zero, readAt_natCast]
  unfold wetTap
  by_cases hCN : C ≤ N
  · rw [if_pos hCN, Nat.mod_eq_sub_mod hCN]
    exact hrec (N - C) (by omega) (by omega)
  · rw [if_neg hCN, Nat.mod_eq_of_lt (by omega)]
    exact hzero N (le_refl N) (by omega)

/-- A run of a zeroed delay line whose smoothed delay is 0 at every frame
completes and keeps the invariant of a line of lag `C`. -/
theorem zero_delay_run {C : ℕ} (p : PluginSimpleDelay) (inL inR outL0 outR0 : ℕ → ℚ)
    (hC : 0 < C) (hbuflen : p.buflen = C) (hbuf : p.buffer = some (List.replicate C 0))
    (hwp : p.writepos = 0)
    (hs : ∀ k, smoothed p.smooth_delay p.delaylen k = 0) (N : ℕ) :
    ∃ st, run p inL inR outL0 outR0 N = some st ∧
      DelayInv C C p.feedback p.drywetmix p.smooth_delay p.delaylen
        inL inR outL0 outR0 (lineSamples inL inR C p.feedback) N st := by
  have h0 : DelayInv C C p.feedback p.drywetmix p.smooth_delay p.delaylen
      inL inR outL0 outR0 (lineSamples inL inR C p.feedback) 0 ⟨p, outL0, outR0⟩ := by
    refine ⟨hbuflen, by simp [hwp], rfl, rfl, rfl, rfl, ?_, by simp, by simp⟩
    refine ⟨_, hbuf, by simp, by simp, ?_⟩
    intro j _ hj
    simp [List.getElem?_replicate, hj]
  obtain ⟨st, hst, hinv⟩ := runFrom_invariant inL inR
    (DelayInv C C p.feedback p.drywetmix p.smooth_delay p.delaylen inL inR outL0 outR0
      (lineSamples inL inR C p.feedback))
    N 0 ⟨p, outL0, outR0⟩
    (fun k s _ _ hi => delay_line_step_of_read hC
      (lineSamples_rec inL inR C p.feedback hC) k s hi
      (delay_inv_read_zero hC k (hs k) s hi)) h0
  refine ⟨st, ?_, by simpa using hinv⟩
  unfold run
  rw [if_pos (by rw [hbuflen]; exact hC)]
  exact hst

/-- What frame `n` of such a run reads and stores. -/
theorem zero_delay_taps {C : ℕ} (p : PluginSimpleDelay) (inL inR outL0 outR0 : ℕ → ℚ)
    (hC : 0 < C) (hbuflen : p.buflen = C) (hbuf : p.buffer = some (List.replicate C 0))
    (hwp : p.writepos = 0)
    (hs : ∀ k, smoothed p.smooth_delay p.delaylen k = 0) (n : ℕ) :
    wetAt p inL inR outL0 outR0 n = some (wetTap (lineSamples inL inR C p.feedback) C n) ∧
    writtenAt p inL inR outL0 outR0 n = some (lineSamples inL inR C p.feedback n) := by
  obtain ⟨st, hrun, hinv⟩ := zero_delay_run p inL inR outL0 outR0 hC hbuflen hbuf hwp hs n
  obtain ⟨st', hrun', hinv'⟩ :=
    zero_delay_run p inL inR outL0 outR0 hC hbuflen hbuf hwp hs (n + 1)
  constructor
  · obtain ⟨buf, hb, _⟩ := hinv.storage
    unfold wetAt
    rw [hrun]
    simp only [Option.some_bind, hb]
    exact delay_inv_read_zero hC n (hs n) st hinv buf hb
  · obtain ⟨buf', hb', _, hrec, _⟩ := hinv'.storage
    unfold writtenAt
    rw [hrun, hrun']
    simp only [Option.some_bind, hb', hinv.writepos]
    exact hrec n (by omega) (by omega)

/-- **C19** Zero delay reads the oldest sample. On a freshly allocated zeroed
buffer of capacity `C > 0` with the smoothed delay equal to 0 at every frame,
the wet sample `run` reads at frame `n` is 0 for `n < C` and is the value
written at frame `n - C` for `n ≥ C`; the value written at frame `n` is the
mono input plus feedback times that wet sample, so the read never returns the
current frame's input: delay 0 behaves as a delay of the full length `C`. -/
theorem zero_delay (C : ℕ) (p : PluginSimpleDelay) (inL inR outL0 outR0 : ℕ → ℚ)
    (hC : 0 < C) (hbuflen : p.buflen = C) (hbuf : p.buffer = some (List.replicate C 0))
    (hwp : p.writepos = 0)
    (hs : ∀ k, smoothed p.smooth_delay p.delaylen k = 0) (n : ℕ) :
    (n < C → wetAt p inL inR outL0 outR0 n = some 0) ∧
    (C ≤ n → ∃ v, writtenAt p inL inR outL0 outR0 (n - C) = some v ∧
      wetAt p inL inR outL0 outR0 n = some v) ∧
    (∃ wet, wetAt p inL inR outL0 outR0 n = some wet ∧
      writtenAt p inL inR outL0 outR0 n = some ((inL n + inR n) / 2 + wet * p.feedback)) := by
  have ht := zero_delay_taps p inL inR outL0 outR0 hC hbuflen hbuf hwp hs
  refine ⟨?_, ?_, ?_⟩
  · intro hn
    rw [(ht n).1, wetTap, if_neg (by omega)]
  · intro hn
    refine ⟨_, (ht (n - C)).2, ?_⟩
    rw [(ht n).1, wetTap, if_pos hn]
  · refine ⟨_, (ht n).1, ?_⟩
    rw [(ht n).2]
    exact congrArg some (lineSamples_rec inL inR C p.feedback hC n)

/-- Witness for C19: capacity 4, delay 0, a ramp on both channels, feedback 0:
frame 6 reads what frame 2 wrote, the ramp value 2. -/
theorem zero_delay_witness :
    wetAt (restingLine 4 0 0 1) (fun n => n) (fun n => n) (fun _ => 0) (fun _ => 0) 6
      = some 2 := by
  have hs : ∀ k, smoothed (restingLine 4 0 0 1).smooth_delay (restingLine 4 0 0 1).delaylen k
      = 0 := fun k =>
    (smoothed_rest (restingLine 4 0 0 1).smooth_delay 0 rfl (by norm_num [restingLine]) k).2
  have h2 := (zero_delay 4 (restingLine 4 0 0 1) (fun n => n) (fun n => n) (fun _ => 0)
    (fun _ => 0) (by decide) rfl rfl rfl hs 2).2.2
  have h6 := (zero_delay 4 (restingLine 4 0 0 1) (fun n => n) (fun n => n) (fun _ => 0)
    (fun _ => 0) (by decide) rfl rfl rfl hs 6).2.1 (by decide)
  obtain ⟨wet, _, hw2⟩ := h2
  obtain ⟨v, hv, hw6⟩ := h6
  rw [hw6]
  rw [show 6 - 4 = 2 from rfl, hw2] at hv
  have := Option.some.inj hv
  rw [← this]
  norm_num [restingLine]

/-! ## Allocation, bypass and the lifecycle -/

theorem run_unusable (p : PluginSimpleDelay) (inL inR outL0 outR0 : ℕ → ℚ) (frames : ℕ)
    (h : p.buflen = 0) :
    run p inL inR outL0 outR0 frames = some ⟨p, outL0, outR0⟩ := by
  unfold run
  rw [if_neg (by omega)]

theorem run_null_buffer (p : PluginSimpleDelay) (inL inR outL0 outR0 : ℕ → ℚ) (n : ℕ)
    (hb : p.buffer = none) (hbl : 0 < p.buflen) :
    run p inL inR outL0 outR0 (n + 1) = none := by
  unfold run
  rw [if_pos hbl, runFrom]
  have : frame inL inR 0 ⟨p, outL0, outR0⟩ = none := by
    unfold frame
    simp [hb]
  rw [this]
  rfl

theorem deactivate_fields (p : PluginSimpleDelay) :
    (deactivate p).buffer = none ∧ (deactivate p).buflen = p.buflen ∧
      (deactivate p).writepos = p.writepos := by
  unfold deactivate
  cases h : p.buffer with
  | none => exact ⟨h, rfl, rfl⟩
  | some buf => exact ⟨rfl, rfl, rfl⟩

/-- **C14** Allocation contract. `allocateBuffer` on success yields storage of
`buflen` samples, all zero, with `writepos = 0`; on allocation failure it
leaves `buflen = 0` and no storage, and a following `run` returns with the
plugin state and the output arrays untouched: it reads and writes nothing. -/
theorem allocation_contract (MAX_DELAY_TIME : ℕ) (p : PluginSimpleDelay) (sampleRate : ℚ) :
    (∃ buf, (allocateBuffer MAX_DELAY_TIME true p sampleRate).buffer = some buf ∧
      buf.length = (allocateBuffer MAX_DELAY_TIME true p sampleRate).buflen ∧
      ∀ v ∈ buf, v = 0) ∧
    (allocateBuffer MAX_DELAY_TIME true p sampleRate).buflen
      = ((MAX_DELAY_TIME / 1000) * toUInt32 sampleRate) % 2 ^ 32 ∧
    (allocateBuffer MAX_DELAY_TIME true p sampleRate).writepos = 0 ∧
    (allocateBuffer MAX_DELAY_TIME false p sampleRate).buflen = 0 ∧
    (allocateBuffer MAX_DELAY_TIME false p sampleRate).buffer = none ∧
    ∀ (inL inR outL0 outR0 : ℕ → ℚ) (frames : ℕ),
      run (allocateBuffer MAX_DELAY_TIME false p sampleRate) inL inR outL0 outR0 frames
        = some ⟨allocateBuffer MAX_DELAY_TIME false p sampleRate, outL0, outR0⟩ := by
  refine ⟨⟨_, rfl, ?_, ?_⟩, rfl, rfl, rfl, rfl, ?_⟩
  · simp [allocateBuffer]
  · intro v hv
    exact List.eq_of_mem_replicate hv
  · intro inL inR outL0 outR0 frames
    exact run_unusable _ inL inR outL0 outR0 frames rfl

/-- Counterexample to C15 as stated: on the unusable state `rawPlugin`
(`buflen = 0`) with input 1 on both channels and output arrays holding 0,
`run` over one frame leaves `outL[0] = outR[0] = 0`: the input is not passed
through. -/
theorem unusable_bypass_counterexample :
    rawPlugin.buflen = 0 ∧
    ∃ st, run rawPlugin (fun _ => 1) (fun _ => 1) (fun _ => 0) (fun _ => 0) 1 = some st ∧
      st.outL 0 = 0 ∧ st.outR 0 = 0 ∧
      st.outL 0 ≠ (fun _ : ℕ => (1 : ℚ)) 0 ∧ st.outR 0 ≠ (fun _ : ℕ => (1 : ℚ)) 0 := by
  refine ⟨rfl, _, run_unusable rawPlugin _ _ _ _ 1 rfl, rfl, rfl, ?_, ?_⟩ <;> norm_num

/-- **C15** (amended) Unusable-buffer bypass. When the buffer is unusable
(`buflen = 0`), `run` skips delay processing, changes no engine state
(`writepos`, `buffer`, the smoother, the parameters) and writes nothing to the
output arrays: `outL[i]` and `outR[i]` keep what they held before the call. -/
theorem unusable_bypass (p : PluginSimpleDelay) (inL inR outL0 outR0 : ℕ → ℚ) (frames : ℕ)
    (h : p.buflen = 0) :
    ∃ st, run p inL inR outL0 outR0 frames = some st ∧
      st.p.writepos = p.writepos ∧ st.p.buffer = p.buffer ∧
      st.p.smooth_delay = p.smooth_delay ∧ st.p.buflen = p.buflen ∧
      st.p.delaylen = p.delaylen ∧ st.p.feedback = p.feedback ∧
      st.p.drywetmix = p.drywetmix ∧
      ∀ i, st.outL i = outL0 i ∧ st.outR i = outR0 i :=
  ⟨_, run_unusable p inL inR outL0 outR0 frames h, rfl, rfl, rfl, rfl, rfl, rfl, rfl,
    fun _ => ⟨rfl, rfl⟩⟩

/-- Witness for C15: `rawPlugin` has `buflen = 0`; a run over 8 frames leaves
the output arrays as they were. -/
theorem unusable_bypass_witness :
    ∃ st, run rawPlugin (fun n => n) (fun _ => 1) (fun _ => 7) (fun _ => 9) 8 = some st ∧
      st.outL 3 = 7 ∧ st.outR 3 = 9 := by
  obtain ⟨st, hst, _, _, _, _, _, _, _, hout⟩ :=
    unusable_bypass rawPlugin (fun n => n) (fun _ => 1) (fun _ => 7) (fun _ => 9) 8 rfl
  exact ⟨st, hst, (hout 3).1, (hout 3).2⟩

/-- **C18** Lifecycle: the code at the failing input. Construct at 48 kHz,
`activate` with a successful allocation (`MAX_DELAY_TIME = 5000`), then
`deactivate`: the storage is gone while `buflen` is still 240000, so the
guard `buflen > 0` of `run` passes and the first frame of a following `run`
reads through the null `buffer`, which has no defined result. -/
theorem lifecycle_deactivate_run :
    (deactivate (activate expStandIn 5000 200 true
        (PluginSimpleDelay.construct expStandIn 200 rawPlugin))).buflen = 240000 ∧
    (deactivate (activate expStandIn 5000 200 true
        (PluginSimpleDelay.construct expStandIn 200 rawPlugin))).buffer = none ∧
    run (deactivate (activate expStandIn 5000 200 true
        (PluginSimpleDelay.construct expStandIn 200 rawPlugin)))
      (fun _ => 0) (fun _ => 0) (fun _ => 0) (fun _ => 0) 1 = none := by
  have hbl : (deactivate (activate expStandIn 5000 200 true
      (PluginSimpleDelay.construct expStandIn 200 rawPlugin))).buflen = 240000 := by
    rw [(deactivate_fields _).2.1]
    show ((5000 / 1000) * toUInt32 (48000 : ℚ)) % 2 ^ 32 = 240000
    have : toUInt32 (48000 : ℚ) = 48000 := by
      have h : toInt32 (48000 : ℚ) = 48000 := by
        have := toInt32_intCast 48000
        simpa using this
      unfold toUInt32
      rw [h]
      decide
    rw [this]
    decide
  refine ⟨hbl, (deactivate_fields _).1, ?_⟩
  exact run_null_buffer _ _ _ _ _ 0 (deactivate_fields _).1 (by rw [hbl]; decide)

/-! ## Rounding to binary32 -/

theorem roundHalfEven_cases (y : ℚ) :
    (roundHalfEven y = ⌊y⌋ ∧ y - ⌊y⌋ ≤ 1 / 2) ∨ (roundHalfEven y = ⌊y⌋ + 1 ∧ 1 / 2 ≤ y - ⌊y⌋) := by
  unfold roundHalfEven
  split_ifs with h1 h2 h3
  · exact Or.inl ⟨rfl, h1.le⟩
  · exact Or.inr ⟨rfl, h2.le⟩
  · exact Or.inl ⟨rfl, not_lt.mp h2⟩
  · exact Or.inr ⟨rfl, not_lt.mp h1⟩

theorem roundHalfEven_intCast (k : ℤ) : roundHalfEven (k : ℚ) = k := by
  unfold roundHalfEven
  simp

theorem roundHalfEven_mono {y₁ y₂ : ℚ} (h : y₁ ≤ y₂) : roundHalfEven y₁ ≤ roundHalfEven y₂ := by
  have hf : ⌊y₁⌋ ≤ ⌊y₂⌋ := Int.floor_mono h
  rcases lt_or_eq_of_le hf with hlt | heq
  · rcases roundHalfEven_cases y₁ with ⟨e1, _⟩ | ⟨e1, _⟩ <;>
    rcases roundHalfEven_cases y₂ with ⟨e2, _⟩ | ⟨e2, _⟩ <;> omega
  · unfold roundHalfEven
    rw [← heq]
    have hd : y₁ - ⌊y₁⌋ ≤ y₂ - ⌊y₁⌋ := by linarith
    split_ifs <;> first | omega | (exfalso; linarith)

theorem roundHalfEven_neg (y : ℚ) : roundHalfEven (-y) = -roundHalfEven y := by
  have h0 : (0 : ℚ) ≤ y - ⌊y⌋ := by linarith [Int.floor_le y]
  have h1 : y - ⌊y⌋ < 1 := by linarith [Int.lt_floor_add_one y]
  by_cases hd : y - ⌊y⌋ = 0
  · have hy : y = ((⌊y⌋ : ℤ) : ℚ) := by linarith
    rw [hy, ← Int.cast_neg, roundHalfEven_intCast, roundHalfEven_intCast]
  · have hpos : 0 < y - ⌊y⌋ := lt_of_le_of_ne h0 (Ne.symm hd)
    have hfl : ⌊-y⌋ = -⌊y⌋ - 1 := by
      rw [Int.floor_eq_iff]
      push_cast
      constructor <;> linarith
    unfold roundHalfEven
    rw [hfl]
    push_cast
    split_ifs <;> first | omega | (exfalso; linarith)

theorem log_binade {x : ℚ} (hx : x ≠ 0) :
    (2 : ℚ) ^ Int.log 2 |x| ≤ |x| ∧ |x| < (2 : ℚ) ^ (Int.log 2 |x| + 1) := by
  have hpos : 0 < |x| := abs_pos.mpr hx
  have h1 := Int.zpow_log_le_self (b := 2) (r := |x|) (by norm_num) hpos
  have h2 := Int.lt_zpow_succ_log_self (b := 2) (by norm_num) |x|
  exact ⟨by exact_mod_cast h1, by exact_mod_cast h2⟩

theorem log_eq_of_binade {x : ℚ} {e : ℤ} (h1 : (2 : ℚ) ^ e ≤ |x|) (h2 : |x| < (2 : ℚ) ^ (e + 1)) :
    Int.log 2 |x| = e := by
  have hpos : 0 < |x| := lt_of_lt_of_le (by positivity) h1
  have ha : e ≤ Int.log 2 |x| :=
    (Int.zpow_le_iff_le_log (b := 2) (by norm_num) hpos).mp (by exact_mod_cast h1)
  have hb : Int.log 2 |x| < e + 1 :=
    (Int.lt_zpow_iff_log_lt (b := 2) (by norm_num) hpos).mp (by exact_mod_cast h2)
  omega

theorem roundF32_of_binade {x : ℚ} {e : ℤ} (h1 : (2 : ℚ) ^ e ≤ |x|)
    (h2 : |x| < (2 : ℚ) ^ (e + 1)) :
    roundF32 x = (roundHalfEven (x / 2 ^ (e - 23)) : ℚ) * 2 ^ (e - 23) := by
  have hpos : 0 < |x| := lt_of_lt_of_le (by positivity) h1
  have hx : x ≠ 0 := abs_pos.mp hpos
  unfold roundF32
  rw [if_neg hx, log_eq_of_binade h1 h2]

theorem roundF32_zero : roundF32 0 = 0 := by simp [roundF32]

theorem roundF32_neg (x : ℚ) : roundF32 (-x) = -roundF32 x := by
  by_cases hx : x = 0
  · subst hx; simp [roundF32_zero]
  · have hb := log_binade hx
    have hb' : (2 : ℚ) ^ Int.log 2 |x| ≤ |(-x)| ∧ |(-x)| < (2 : ℚ) ^ (Int.log 2 |x| + 1) := by
      rw [abs_neg]; exact hb
    rw [roundF32_of_binade hb'.1 hb'.2, roundF32_of_binade hb.1 hb.2, neg_div,
      roundHalfEven_neg]
    push_cast
    ring

/-- A positive value rounds into the closure of its binade. -/
theorem roundF32_binade_bounds {x : ℚ} {e : ℤ} (hx : 0 < x) (h1 : (2 : ℚ) ^ e ≤ x)
    (h2 : x < (2 : ℚ) ^ (e + 1)) :
    (2 : ℚ) ^ e ≤ roundF32 x ∧ roundF32 x ≤ (2 : ℚ) ^ (e + 1) := by
  have habs : |x| = x := abs_of_pos hx
  rw [roundF32_of_binade (by rw [habs]; exact h1) (by rw [habs]; exact h2)]
  have hq : (0 : ℚ) < 2 ^ (e - 23) := by positivity
  have e1 : (2 : ℚ) ^ e = ((2 ^ 23 : ℤ) : ℚ) * 2 ^ (e - 23) := by
    have : (2 : ℚ) ^ e = 2 ^ (23 : ℤ) * 2 ^ (e - 23) := by
      rw [← zpow_add₀ (by norm_num : (2 : ℚ) ≠ 0)]
      congr 1; omega
    rw [this]; norm_num
  have e2 : (2 : ℚ) ^ (e + 1) = ((2 ^ 24 : ℤ) : ℚ) * 2 ^ (e - 23) := by
    have : (2 : ℚ) ^ (e + 1) = 2 ^ (24 : ℤ) * 2 ^ (e - 23) := by
      rw [← zpow_add₀ (by norm_num : (2 : ℚ) ≠ 0)]
      congr 1; omega
    rw [this]; norm_num
  have hy1 : ((2 ^ 23 : ℤ) : ℚ) ≤ x / 2 ^ (e - 23) := by
    rw [le_div_iff₀ hq, ← e1]; exact h1
  have hy2 : x / 2 ^ (e - 23) ≤ ((2 ^ 24 : ℤ) : ℚ) := by
    rw [div_le_iff₀ hq, ← e2]; exact h2.le
  have r1 : (2 ^ 23 : ℤ) ≤ roundHalfEven (x / 2 ^ (e - 23)) := by
    have := roundHalfEven_mono hy1
    rwa [roundHalfEven_intCast] at this
  have r2 : roundHalfEven (x / 2 ^ (e - 23)) ≤ (2 ^ 24 : ℤ) := by
    have := roundHalfEven_mono hy2
    rwa [roundHalfEven_intCast] at this
  rw [e1, e2]
  constructor
  · exact mul_le_mul_of_nonneg_right (by exact_mod_cast r1) hq.le
  · exact mul_le_mul_of_nonneg_right (by exact_mod_cast r2) hq.le

theorem roundF32_pos {x : ℚ} (hx : 0 < x) : 0 < roundF32 x := by
  have hb := log_binade hx.ne'
  rw [abs_of_pos hx] at hb
  exact lt_of_lt_of_le (by positivity) (roundF32_binade_bounds hx hb.1 hb.2).1

theorem roundF32_mono_pos {x y : ℚ} (hx : 0 < x) (hxy : x ≤ y) : roundF32 x ≤ roundF32 y := by
  have hy : 0 < y := lt_of_lt_of_le hx hxy
  have hbx := log_binade hx.ne'
  have hby := log_binade hy.ne'
  rw [abs_of_pos hx] at hbx
  rw [abs_of_pos hy] at hby
  have hle : Int.log 2 x ≤ Int.log 2 y := Int.log_mono_right hx hxy
  rcases lt_or_eq_of_le hle with hlt | heq
  · have b1 := (roundF32_binade_bounds hx hbx.1 hbx.2).2
    have b2 := (roundF32_binade_bounds hy hby.1 hby.2).1
    have : (2 : ℚ) ^ (Int.log 2 x + 1) ≤ 2 ^ Int.log 2 y :=
      zpow_le_zpow_right₀ (by norm_num) (by omega)
    linarith
  · have hbx' : (2 : ℚ) ^ Int.log 2 x ≤ |x| ∧ |x| < (2 : ℚ) ^ (Int.log 2 x + 1) := by
      rw [abs_of_pos hx]; exact hbx
    have hby' : (2 : ℚ) ^ Int.log 2 x ≤ |y| ∧ |y| < (2 : ℚ) ^ (Int.log 2 x + 1) := by
      rw [abs_of_pos hy, heq]; exact hby
    rw [roundF32_of_binade hbx'.1 hbx'.2, roundF32_of_binade hby'.1 hby'.2]
    have hq : (0 : ℚ) < 2 ^ (Int.log 2 x - 23) := by positivity
    have : roundHalfEven (x / 2 ^ (Int.log 2 x - 23)) ≤ roundHalfEven (y / 2 ^ (Int.log 2 x - 23)) :=
      roundHalfEven_mono (div_le_div_of_nonneg_right hxy hq.le)
    exact mul_le_mul_of_nonneg_right (by exact_mod_cast this) hq.le

/-- Rounding to binary32 is monotone. -/
theorem roundF32_mono {x y : ℚ} (hxy : x ≤ y) : roundF32 x ≤ roundF32 y := by
  rcases lt_trichotomy x 0 with hx | hx | hx
  · rcases lt_trichotomy y 0 with hy | hy | hy
    · have := roundF32_mono_pos (x := -y) (y := -x) (by linarith) (by linarith)
      rw [roundF32_neg, roundF32_neg] at this
      linarith
    · subst hy
      have := roundF32_pos (x := -x) (by linarith)
      rw [roundF32_neg] at this
      rw [roundF32_zero]; linarith
    · have h1 := roundF32_pos (x := -x) (by linarith)
      rw [roundF32_neg] at h1
      have h2 := roundF32_pos hy
      linarith
  · subst hx
    rcases lt_or_eq_of_le hxy with hy | hy
    · rw [roundF32_zero]; exact (roundF32_pos hy).le
    · rw [← hy]
  · exact roundF32_mono_pos hx hxy

theorem roundF32_natCast_pos {k : ℕ} (hk0 : 0 < k) (hk : k ≤ 2 ^ 24) :
    roundF32 (k : ℚ) = k := by
  have hkq : (0 : ℚ) < k := by exact_mod_cast hk0
  have hb := log_binade hkq.ne'
  rw [abs_of_pos hkq] at hb
  have hb' : (2 : ℚ) ^ Int.log 2 (k : ℚ) ≤ |(k : ℚ)| ∧
      |(k : ℚ)| < (2 : ℚ) ^ (Int.log 2 (k : ℚ) + 1) := by
    rw [abs_of_pos hkq]; exact hb
  have he0 : 0 ≤ Int.log 2 (k : ℚ) := by
    have : (2 : ℚ) ^ (0 : ℤ) ≤ k := by
      simp only [zpow_zero]; exact_mod_cast hk0
    exact (Int.zpow_le_iff_le_log (b := 2) (by norm_num) hkq).mp (by exact_mod_cast this)
  have he24 : Int.log 2 (k : ℚ) ≤ 24 := by
    have h1 : (2 : ℚ) ^ Int.log 2 (k : ℚ) ≤ (2 : ℚ) ^ (24 : ℤ) := by
      have : (k : ℚ) ≤ (2 : ℚ) ^ (24 : ℤ) := by
        have : (k : ℚ) ≤ ((2 ^ 24 : ℕ) : ℚ) := by exact_mod_cast hk
        norm_num at this ⊢
        exact this
      linarith [hb.1]
    exact (zpow_le_zpow_iff_right₀ (by norm_num : (1 : ℚ) < 2)).mp h1
  rw [roundF32_of_binade hb'.1 hb'.2]
  set e := Int.log 2 (k : ℚ) with he
  have hq : (0 : ℚ) < 2 ^ (e - 23) := by positivity
  rcases lt_or_eq_of_le he24 with hlt | heq
  · -- the scaled value is an integer
    obtain ⟨n, hn⟩ : ∃ n : ℕ, (23 - e) = (n : ℤ) := ⟨(23 - e).toNat, by omega⟩
    have hinv : (2 : ℚ) ^ (e - 23) = ((2 : ℚ) ^ n)⁻¹ := by
      have : e - 23 = -(n : ℤ) := by omega
      rw [this, zpow_neg, zpow_natCast]
    have hy : (k : ℚ) / 2 ^ (e - 23) = (((k * 2 ^ n : ℕ) : ℤ) : ℚ) := by
      rw [hinv]; push_cast; field_simp
    rw [hy, roundHalfEven_intCast, hinv]
    push_cast
    field_simp
  · have hk24 : (k : ℚ) = 2 ^ 24 := by
      have h1 := hb.1
      rw [heq] at h1
      have h2 : (k : ℚ) ≤ ((2 ^ 24 : ℕ) : ℚ) := by exact_mod_cast hk
      have h3 : ((2 : ℚ) ^ (24 : ℤ)) = 2 ^ 24 := by norm_num
      rw [h3] at h1
      push_cast at h2
      linarith
    rw [heq, hk24]
    have hy : ((2 : ℚ) ^ 24) / 2 ^ ((24 : ℤ) - 23) = (((2 ^ 23 : ℕ) : ℤ) : ℚ) := by norm_num
    rw [hy, roundHalfEven_intCast]
    norm_num

/-- Integers of magnitude up to `2 ^ 24` are binary32 values: rounding leaves
them as they are. -/
theorem roundF32_intCast {k : ℤ} (hk : |k| ≤ 2 ^ 24) : roundF32 (k : ℚ) = k := by
  rcases lt_trichotomy k 0 with h | h | h
  · obtain ⟨n, hn⟩ : ∃ n : ℕ, -k = (n : ℤ) := ⟨(-k).toNat, by omega⟩
    have hn0 : 0 < n := by omega
    have hn24 : n ≤ 2 ^ 24 := by
      have : |k| = -k := abs_of_neg h
      omega
    have hkq : (k : ℚ) = -((n : ℕ) : ℚ) := by
      have : k = -(n : ℤ) := by omega
      rw [this]; push_cast; ring
    rw [hkq, roundF32_neg, roundF32_natCast_pos hn0 hn24]
  · subst h; simp [roundF32_zero]
  · obtain ⟨n, hn⟩ : ∃ n : ℕ, k = (n : ℤ) := ⟨k.toNat, by omega⟩
    have hn0 : 0 < n := by omega
    have hn24 : n ≤ 2 ^ 24 := by
      have : |k| = k := abs_of_pos h
      omega
    rw [hn]
    push_cast
    exact roundF32_natCast_pos hn0 hn24

/-- Rounding to binary32 does not cross an integer of magnitude up to
`2 ^ 24`. -/
theorem roundF32_int_bounds {k : ℤ} (hk : |k| ≤ 2 ^ 24) (x : ℚ) :
    ((k : ℚ) ≤ x → (k : ℚ) ≤ roundF32 x) ∧ (x ≤ (k : ℚ) → roundF32 x ≤ (k : ℚ)) := by
  constructor
  · intro h
    have := roundF32_mono h
    rwa [roundF32_intCast hk] at this
  · intro h
    have := roundF32_mono h
    rwa [roundF32_intCast hk] at this

theorem roundHalfEven_abs_sub (y : ℚ) : |(roundHalfEven y : ℚ) - y| ≤ 1 / 2 := by
  have h0 : (⌊y⌋ : ℚ) ≤ y := Int.floor_le y
  have h1 : y < ⌊y⌋ + 1 := Int.lt_floor_add_one y
  rw [abs_le]
  rcases roundHalfEven_cases y with ⟨e, h⟩ | ⟨e, h⟩
  · rw [e]; constructor <;> linarith
  · rw [e]; push_cast; constructor <;> linarith

/-- One rounding to binary32 changes a value by at most `2 ^ (-24)` of its
magnitude. -/
theorem roundF32_error (y : ℚ) : |roundF32 y - y| ≤ epsF32 * |y| := by
  by_cases hy : y = 0
  · subst hy; simp [roundF32_zero]
  · have hb := log_binade hy
    rw [roundF32_of_binade hb.1 hb.2]
    set e := Int.log 2 |y|
    have hq : (0 : ℚ) < 2 ^ (e - 23) := by positivity
    have hrew : (roundHalfEven (y / 2 ^ (e - 23)) : ℚ) * 2 ^ (e - 23) - y
        = ((roundHalfEven (y / 2 ^ (e - 23)) : ℚ) - y / 2 ^ (e - 23)) * 2 ^ (e - 23) := by
      field_simp
    rw [hrew, abs_mul, abs_of_pos hq]
    have h1 := roundHalfEven_abs_sub (y / 2 ^ (e - 23))
    have h2 : (1 / 2 : ℚ) * 2 ^ (e - 23) = epsF32 * 2 ^ e := by
      have : (2 : ℚ) ^ e = 2 ^ (23 : ℤ) * 2 ^ (e - 23) := by
        rw [← zpow_add₀ (by norm_num : (2 : ℚ) ≠ 0)]
        congr 1; omega
      rw [this, epsF32]; norm_num
      ring
    calc |(roundHalfEven (y / 2 ^ (e - 23)) : ℚ) - y / 2 ^ (e - 23)| * 2 ^ (e - 23)
        ≤ (1 / 2) * 2 ^ (e - 23) := mul_le_mul_of_nonneg_right h1 hq.le
      _ = epsF32 * 2 ^ e := h2
      _ ≤ epsF32 * |y| := mul_le_mul_of_nonneg_left hb.1 (by norm_num [epsF32])

theorem smoothStateF32_coeff (c : CParamSmooth) (x : ℚ) (n : ℕ) :
    (smoothStateF32 c x n).a = c.a ∧ (smoothStateF32 c x n).b = c.b := by
  induction n with
  | zero => exact ⟨rfl, rfl⟩
  | succ n ih => exact ⟨ih.1, ih.2⟩

/-- One call of `process` in binary32 stays within `kappaF32` (relative) of
the exact blend. -/
theorem processF32_error (c : CParamSmooth) (x : ℚ) (ha0 : 0 ≤ c.a) (hb0 : 0 ≤ c.b) :
    |(c.processF32 x).2 - (x * c.b + c.z * c.a)| ≤ kappaF32 * (|x| * c.b + |c.z| * c.a) := by
  show |roundF32 (roundF32 (x * c.b) + roundF32 (c.z * c.a)) - (x * c.b + c.z * c.a)| ≤ _
  set u := x * c.b
  set v := c.z * c.a
  have hu : |u| = |x| * c.b := by rw [abs_mul, abs_of_nonneg hb0]
  have hv : |v| = |c.z| * c.a := by rw [abs_mul, abs_of_nonneg ha0]
  rw [← hu, ← hv]
  have e1 := roundF32_error u
  have e2 := roundF32_error v
  have e3 := roundF32_error (roundF32 u + roundF32 v)
  have he : (0 : ℚ) ≤ epsF32 := by norm_num [epsF32]
  have p1 : |roundF32 u| ≤ (1 + epsF32) * |u| := by
    have := abs_sub_abs_le_abs_sub (roundF32 u) u
    linarith
  have p2 : |roundF32 v| ≤ (1 + epsF32) * |v| := by
    have := abs_sub_abs_le_abs_sub (roundF32 v) v
    linarith
  have ps : |roundF32 u + roundF32 v| ≤ (1 + epsF32) * (|u| + |v|) := by
    have := abs_add (roundF32 u) (roundF32 v)
    linarith
  have e3' : |roundF32 (roundF32 u + roundF32 v) - (roundF32 u + roundF32 v)|
      ≤ epsF32 * ((1 + epsF32) * (|u| + |v|)) :=
    le_trans e3 (mul_le_mul_of_nonneg_left ps he)
  have tri : |roundF32 (roundF32 u + roundF32 v) - (u + v)|
      ≤ |roundF32 (roundF32 u + roundF32 v) - (roundF32 u + roundF32 v)|
        + |roundF32 u - u| + |roundF32 v - v| := by
    have h1 : roundF32 (roundF32 u + roundF32 v) - (u + v)
        = (roundF32 (roundF32 u + roundF32 v) - (roundF32 u + roundF32 v))
          + (roundF32 u - u) + (roundF32 v - v) := by ring
    rw [h1]
    exact abs_add_three _ _ _
  have : kappaF32 * (|u| + |v|)
      = epsF32 * ((1 + epsF32) * (|u| + |v|)) + epsF32 * |u| + epsF32 * |v| := by
    unfold kappaF32; ring
  rw [this]
  linarith

/-- One call of `process` in binary32 brings `z` towards `x` by the factor
`a + kappaF32`, up to `kappaF32 * |x|`. -/
theorem processF32_step (c : CParamSmooth) (x : ℚ) (ha0 : 0 ≤ c.a) (ha1 : c.a ≤ 1)
    (hb : c.b = 1 - c.a) :
    |(c.processF32 x).2 - x| ≤ (c.a + kappaF32) * |c.z - x| + kappaF32 * |x| := by
  have hb0 : 0 ≤ c.b := by rw [hb]; linarith
  have herr := processF32_error c x ha0 hb0
  have hk : (0 : ℚ) ≤ kappaF32 := by norm_num [kappaF32, epsF32]
  have hblend : x * c.b + c.z * c.a - x = c.a * (c.z - x) := by rw [hb]; ring
  have h1 : |x * c.b + c.z * c.a - x| = c.a * |c.z - x| := by
    rw [hblend, abs_mul, abs_of_nonneg ha0]
  have hz : |c.z| ≤ |x| + |c.z - x| := by
    have := abs_add x (c.z - x)
    simpa using this
  have h2 : |x| * c.b + |c.z| * c.a ≤ |x| + |c.z - x| := by
    rw [hb]
    nlinarith [abs_nonneg x, abs_nonneg (c.z - x), abs_nonneg c.z]
  have tri : |(c.processF32 x).2 - x|
      ≤ |(c.processF32 x).2 - (x * c.b + c.z * c.a)| + |x * c.b + c.z * c.a - x| := by
    have : (c.processF32 x).2 - x
        = ((c.processF32 x).2 - (x * c.b + c.z * c.a)) + (x * c.b + c.z * c.a - x) := by ring
    rw [this]
    exact abs_add _ _
  have h3 : kappaF32 * (|x| * c.b + |c.z| * c.a) ≤ kappaF32 * (|x| + |c.z - x|) :=
    mul_le_mul_of_nonneg_left h2 hk
  nlinarith [abs_nonneg (c.z - x)]

/-- After `n` calls in binary32 the distance to the target is at most
`(a + kappaF32)^n` times the initial one plus the residual
`kappaF32 * |x| / (b - kappaF32)`. -/
theorem smoothStateF32_bound (c : CParamSmooth) (x : ℚ) (ha0 : 0 ≤ c.a) (ha1 : c.a ≤ 1)
    (hb : c.b = 1 - c.a) (hk : kappaF32 < c.b) (n : ℕ) :
    |(smoothStateF32 c x n).z - x|
      ≤ (c.a + kappaF32) ^ n * |c.z - x| + kappaF32 * |x| / (c.b - kappaF32) := by
  have hk0 : (0 : ℚ) ≤ kappaF32 := by norm_num [kappaF32, epsF32]
  have hd : 0 < c.b - kappaF32 := by linarith
  have hres : 0 ≤ kappaF32 * |x| / (c.b - kappaF32) :=
    div_nonneg (mul_nonneg hk0 (abs_nonneg x)) hd.le
  have hfix : (c.a + kappaF32) * (kappaF32 * |x| / (c.b - kappaF32)) + kappaF32 * |x|
      = kappaF32 * |x| / (c.b - kappaF32) := by
    rw [hb] at hd ⊢
    field_simp
    ring
  induction n with
  | zero => simp only [smoothStateF32, pow_zero, one_mul]; linarith
  | succ n ih =>
    have hco := smoothStateF32_coeff c x n
    have hstep := processF32_step (smoothStateF32 c x n) x (by rw [hco.1]; exact ha0)
      (by rw [hco.1]; exact ha1) (by rw [hco.1, hco.2]; exact hb)
    rw [hco.1] at hstep
    have hrho : 0 ≤ c.a + kappaF32 := by linarith
    have hmul := mul_le_mul_of_nonneg_left ih hrho
    show |((smoothStateF32 c x n).processF32 x).2 - x| ≤ _
    calc |((smoothStateF32 c x n).processF32 x).2 - x|
        ≤ (c.a + kappaF32) * |(smoothStateF32 c x n).z - x| + kappaF32 * |x| := hstep
      _ ≤ (c.a + kappaF32) * ((c.a + kappaF32) ^ n * |c.z - x|
            + kappaF32 * |x| / (c.b - kappaF32)) + kappaF32 * |x| := by linarith
      _ = (c.a + kappaF32) ^ (n + 1) * |c.z - x|
            + ((c.a + kappaF32) * (kappaF32 * |x| / (c.b - kappaF32)) + kappaF32 * |x|) := by
          ring
      _ = (c.a + kappaF32) ^ (n + 1) * |c.z - x| + kappaF32 * |x| / (c.b - kappaF32) := by
          rw [hfix]

theorem roundF32_eval {x : ℚ} (e : ℤ) (m : ℤ) (h1 : (2 : ℚ) ^ e ≤ |x|)
    (h2 : |x| < (2 : ℚ) ^ (e + 1)) (hm : roundHalfEven (x / 2 ^ (e - 23)) = m) :
    roundF32 x = (m : ℚ) * 2 ^ (e - 23) := by
  rw [roundF32_of_binade h1 h2, hm]

theorem stalled_step : stalledSmoother.processF32 11520 = (stalledSmoother, 5897703 / 512) := by
  have r1 : roundF32 (11520 * (10977 / 16777216 : ℚ)) = 493965 / 65536 := by
    rw [roundF32_eval 2 15806880 (by norm_num [abs_of_pos]) (by norm_num [abs_of_pos])
      (by norm_num [roundHalfEven])]
    norm_num
  have r2 : roundF32 ((5897703 / 512 : ℚ) * (16766239 / 16777216)) = 1473461 / 128 := by
    rw [roundF32_eval 13 11787688 (by norm_num [abs_of_pos]) (by norm_num [abs_of_pos])
      (by norm_num [roundHalfEven])]
    norm_num
  have r3 : roundF32 ((493965 / 65536 : ℚ) + 1473461 / 128) = 5897703 / 512 := by
    rw [roundF32_eval 13 11795406 (by norm_num [abs_of_pos]) (by norm_num [abs_of_pos])
      (by norm_num [roundHalfEven])]
    norm_num
  show (({ stalledSmoother with
      z := roundF32 (roundF32 (11520 * stalledSmoother.b) +
        roundF32 (stalledSmoother.z * stalledSmoother.a)) } : CParamSmooth),
    roundF32 (roundF32 (11520 * stalledSmoother.b) +
        roundF32 (stalledSmoother.z * stalledSmoother.a))) = _
  have e : roundF32 (roundF32 (11520 * stalledSmoother.b) +
        roundF32 (stalledSmoother.z * stalledSmoother.a)) = 5897703 / 512 := by
    show roundF32 (roundF32 (11520 * (10977 / 16777216 : ℚ)) +
        roundF32 ((5897703 / 512 : ℚ) * (16766239 / 16777216))) = _
    rw [r1, r2, r3]
  rw [e]
  rfl

/-! ## The smoother and the read index in binary32 -/

theorem toInt32_mono {x y : ℚ} (h : x ≤ y) : toInt32 x ≤ toInt32 y := by
  unfold toInt32
  split_ifs with hx hy hy
  · exact Int.floor_mono h
  · exact absurd (le_trans hx h) hy
  · have h1 : ⌈x⌉ ≤ 0 := by
      rw [Int.ceil_le]; push_cast; linarith [not_le.mp hx]
    have h2 : 0 ≤ ⌊y⌋ := Int.floor_nonneg.mpr hy
    omega
  · exact Int.ceil_mono h

theorem smoothStateF32_fixed (c : CParamSmooth) (x : ℚ) (h : (c.processF32 x).1 = c) (n : ℕ) :
    smoothStateF32 c x n = c := by
  induction n with
  | zero => rfl
  | succ n ih => rw [smoothStateF32, ih, h]

/-- Counterexample to C11 as stated: with the binary32 coefficients of the
200 ms smoother at 48 kHz (`0 < a < 1`, `b = 1 - a`), target 11520 and start
value `11518.951171875`, `process` returns the start value again: the state
never moves, stays more than 1 below the target, and is not
`x + a * (z0 - x)`. -/
theorem smoother_convergence_counterexample :
    (0 < stalledSmoother.a ∧ stalledSmoother.a < 1 ∧
      stalledSmoother.b = 1 - stalledSmoother.a) ∧
    stalledSmoother.z = 5897703 / 512 ∧
    (∀ n, (smoothStateF32 stalledSmoother 11520 n).z = 5897703 / 512) ∧
    (∀ n, ((smoothStateF32 stalledSmoother 11520 n).processF32 11520).2 = 5897703 / 512) ∧
    (∀ n, 1 < |(smoothStateF32 stalledSmoother 11520 n).z - 11520|) ∧
    (stalledSmoother.processF32 11520).2
      ≠ 11520 + stalledSmoother.a ^ 1 * (stalledSmoother.z - 11520) := by
  have hfix : ∀ n, smoothStateF32 stalledSmoother 11520 n = stalledSmoother := fun n =>
    smoothStateF32_fixed stalledSmoother 11520 (by rw [stalled_step]) n
  refine ⟨by norm_num [stalledSmoother], rfl, ?_, ?_, ?_, ?_⟩
  · intro n; rw [hfix n]; rfl
  · intro n; rw [hfix n, stalled_step]
  · intro n
    rw [hfix n]
    norm_num [stalledSmoother, abs_lt, lt_abs]
  · rw [stalled_step]
    norm_num [stalledSmoother]

/-- **C11** (amended) Smoother convergence in binary32. For every target `x`,
start value `z0 = c.z` and coefficients `0 < a < 1`, `b = 1 - a` with
`b > kappaF32 = 2^(-24) * (2 + 2^(-24))`: the `n`-th of `n` successive calls
`process(x)` returns the state `z_n`, and
`|z_n - x| ≤ (a + kappaF32)^n * |z0 - x| + kappaF32 * |x| / (b - kappaF32)`,
so `z_n` approaches `x` geometrically up to that residual and need not reach
`x`. As long as the calls do not round, `z_n = x + a^n * (z0 - x)` and `z_n`
lies between `z0` and `x`. -/
theorem smoother_convergence (c : CParamSmooth) (x : ℚ)
    (ha0 : 0 < c.a) (ha1 : c.a < 1) (hb : c.b = 1 - c.a) (hk : kappaF32 < c.b) :
    (∀ n, ((smoothStateF32 c x n).processF32 x).2 = (smoothStateF32 c x (n + 1)).z) ∧
    (∀ n, |(smoothStateF32 c x n).z - x|
      ≤ (c.a + kappaF32) ^ n * |c.z - x| + kappaF32 * |x| / (c.b - kappaF32)) ∧
    (∀ ε : ℚ, 0 < ε → ∃ N, ∀ n, N ≤ n →
      |(smoothStateF32 c x n).z - x| < kappaF32 * |x| / (c.b - kappaF32) + ε) ∧
    (∀ N, (∀ n, n < N →
        (smoothStateF32 c x n).processF32 x = (smoothStateF32 c x n).process x) →
      ∀ n, n ≤ N → (smoothStateF32 c x n).z = x + c.a ^ n * (c.z - x) ∧
        min c.z x ≤ (smoothStateF32 c x n).z ∧ (smoothStateF32 c x n).z ≤ max c.z x) := by
  have hbound := smoothStateF32_bound c x ha0.le ha1.le hb hk
  have hk0 : (0 : ℚ) < kappaF32 := by norm_num [kappaF32, epsF32]
  refine ⟨fun n => rfl, hbound, ?_, ?_⟩
  · intro ε hε
    have hrho0 : 0 ≤ c.a + kappaF32 := by linarith
    have hrho1 : c.a + kappaF32 < 1 := by rw [hb] at hk; linarith
    have hpos : 0 < |c.z - x| + 1 := by positivity
    obtain ⟨N, hN⟩ := exists_pow_lt_of_lt_one (div_pos hε hpos) hrho1
    refine ⟨N, fun n hn => ?_⟩
    have h1 : (c.a + kappaF32) ^ n ≤ (c.a + kappaF32) ^ N :=
      pow_le_pow_of_le_one hrho0 hrho1.le hn
    have h2 : (c.a + kappaF32) ^ n * |c.z - x| ≤ (c.a + kappaF32) ^ N * |c.z - x| :=
      mul_le_mul_of_nonneg_right h1 (abs_nonneg _)
    have h3 : (c.a + kappaF32) ^ N * (|c.z - x| + 1) < ε := by
      rwa [lt_div_iff₀ hpos] at hN
    have h4 : 0 ≤ (c.a + kappaF32) ^ N := pow_nonneg hrho0 N
    have := hbound n
    nlinarith
  · intro N hexact
    have hsame : ∀ n, n ≤ N → smoothStateF32 c x n = smoothState c x n := by
      intro n
      induction n with
      | zero => intro _; rfl
      | succ n ih =>
        intro hn
        have hprev := ih (by omega)
        show ((smoothStateF32 c x n).processF32 x).1 = ((smoothState c x n).process x).1
        rw [hexact n (by omega), hprev]
    intro n hn
    rw [hsame n hn]
    have hlaw := smoothState_exact_law c x ha0 ha1 hb
    exact ⟨hlaw.1 n, hlaw.2.2.2 n⟩

/-- Witness for C11: the coefficients of the 200 ms smoother at 48 kHz, target
11520, start at rest: after every call the state is within the bound, and the
bound's residual is below 3. -/
theorem smoother_convergence_witness :
    |(smoothStateF32 stalledSmoother 11520 1000).z - 11520|
        ≤ (stalledSmoother.a + kappaF32) ^ 1000 * |stalledSmoother.z - 11520|
          + kappaF32 * |(11520 : ℚ)| / (stalledSmoother.b - kappaF32) ∧
      kappaF32 * |(11520 : ℚ)| / (stalledSmoother.b - kappaF32) < 3 := by
  refine ⟨(smoother_convergence stalledSmoother 11520 (by norm_num [stalledSmoother])
    (by norm_num [stalledSmoother]) (by norm_num [stalledSmoother])
    (by norm_num [stalledSmoother, kappaF32, epsF32])).2.1 1000, ?_⟩
  norm_num [stalledSmoother, kappaF32, epsF32, abs_of_pos]

theorem readIndexF32_eq (C writepos : ℕ) (s : ℚ) (hwp : writepos ≤ 2 ^ 24) :
    readIndexF32 C writepos s =
      (if toInt32 (roundF32 ((writepos : ℚ) - s)) < 0
        then toInt32 (roundF32 ((writepos : ℚ) - s)) + C
        else toInt32 (roundF32 ((writepos : ℚ) - s))) := by
  have hw : roundF32 (writepos : ℚ) = writepos := by
    have := roundF32_intCast (k := (writepos : ℤ)) (by
      rw [abs_of_nonneg (by omega)]; exact_mod_cast hwp)
    simpa using this
  unfold readIndexF32
  rw [hw]
  dsimp only
  split_ifs <;> ring

/-- When the binary32 subtraction is exact the read index is the one of exact
arithmetic. -/
theorem readIndexF32_of_exact (C writepos : ℕ) (s : ℚ) (hwp : writepos ≤ 2 ^ 24)
    (h : roundF32 ((writepos : ℚ) - s) = (writepos : ℚ) - s) :
    readIndexF32 C writepos s = readIndex C writepos s := by
  rw [readIndexF32_eq C writepos s hwp, h]
  unfold readIndex
  dsimp only
  split_ifs <;> ring

/-- Truncation after rounding to binary32 is within one of the truncation of
the exact value, for magnitudes below `2 ^ 24`. -/
theorem toInt32_roundF32 (x : ℚ) (hlo : -(2 : ℚ) ^ 24 < x) (hhi : x < (2 : ℚ) ^ 24) :
    toInt32 x - 1 ≤ toInt32 (roundF32 x) ∧ toInt32 (roundF32 x) ≤ toInt32 x + 1 := by
  by_cases hx : 0 ≤ x
  · have hfl : toInt32 x = ⌊x⌋ := toInt32_nonneg hx
    have h0 : 0 ≤ ⌊x⌋ := Int.floor_nonneg.mpr hx
    have hle : (⌊x⌋ : ℚ) ≤ x := Int.floor_le x
    have hlt : x < ⌊x⌋ + 1 := Int.lt_floor_add_one x
    have hfl24 : ⌊x⌋ < 2 ^ 24 := by
      have : ((⌊x⌋ : ℤ) : ℚ) < ((2 ^ 24 : ℤ) : ℚ) := by push_cast; linarith
      exact_mod_cast this
    have hb1 : |⌊x⌋| ≤ 2 ^ 24 := by rw [abs_of_nonneg h0]; omega
    have hb2 : |⌊x⌋ + 1| ≤ 2 ^ 24 := by rw [abs_of_nonneg (by omega)]; omega
    have l1 := (roundF32_int_bounds hb1 x).1 hle
    have l2 := (roundF32_int_bounds hb2 x).2 (by push_cast; linarith)
    have m1 := toInt32_mono l1
    have m2 := toInt32_mono l2
    rw [toInt32_intCast] at m1 m2
    rw [hfl]; omega
  · have hx' : x < 0 := not_le.mp hx
    have hce : toInt32 x = ⌈x⌉ := toInt32_neg hx'
    have hle : x ≤ (⌈x⌉ : ℚ) := Int.le_ceil x
    have hlt : (⌈x⌉ : ℚ) < x + 1 := Int.ceil_lt_add_one x
    have h0 : ⌈x⌉ ≤ 0 := by rw [Int.ceil_le]; push_cast; linarith
    have hce24 : -(2 ^ 24) < ⌈x⌉ := by
      have : ((-(2 ^ 24) : ℤ) : ℚ) < ((⌈x⌉ : ℤ) : ℚ) := by push_cast; linarith
      exact_mod_cast this
    have hb1 : |⌈x⌉| ≤ 2 ^ 24 := by rw [abs_of_nonpos h0]; omega
    have hb2 : |⌈x⌉ - 1| ≤ 2 ^ 24 := by rw [abs_of_nonpos (by omega)]; omega
    have l1 := (roundF32_int_bounds hb1 x).2 hle
    have l2 := (roundF32_int_bounds hb2 x).1 (by push_cast; linarith)
    have m1 := toInt32_mono l1
    have m2 := toInt32_mono l2
    rw [toInt32_intCast] at m1 m2
    rw [hce]; omega

/-- The binary32 read index stays inside the buffer. -/
theorem readIndexF32_range (C writepos : ℕ) (s : ℚ) (hC24 : C ≤ 2 ^ 24)
    (hwp : writepos < C) (hs0 : 0 ≤ s) (hsC : s ≤ C) :
    0 ≤ readIndexF32 C writepos s ∧ readIndexF32 C writepos s < C := by
  have hwq : (writepos : ℚ) < C := by exact_mod_cast hwp
  have hbw : |(writepos : ℤ)| ≤ 2 ^ 24 := by rw [abs_of_nonneg (by omega)]; omega
  have hbc : |(-(C : ℤ))| ≤ 2 ^ 24 := by rw [abs_neg, abs_of_nonneg (by omega)]; omega
  have u1 := (roundF32_int_bounds hbw ((writepos : ℚ) - s)).2 (by push_cast; linarith)
  have u2 := (roundF32_int_bounds hbc ((writepos : ℚ) - s)).1 (by
    push_cast
    have : (0 : ℚ) ≤ writepos := Nat.cast_nonneg _
    linarith)
  have m1 := toInt32_mono u1
  have m2 := toInt32_mono u2
  rw [toInt32_intCast] at m1 m2
  rw [readIndexF32_eq C writepos s (by omega)]
  split_ifs <;> constructor <;> omega

/-- Counterexample to C9 as stated: capacity 4, write cursor 2. For the
smoothed delay 3/10 the code truncates `2 - 3/10` to 1, while rounding the
delay first gives `2 - 0 = 2`; the same holds in binary32 for the
representable delay 1/4, whose difference `1.75` is exact. -/
theorem read_position_counterexample :
    (0 : ℚ) ≤ 3 / 10 ∧ (3 / 10 : ℚ) < ((4 : ℕ) : ℚ) ∧
      readIndex 4 2 (3 / 10) = 1 ∧ specReadIndex 4 2 (3 / 10) = 2 ∧
      readIndex 4 2 (3 / 10) ≠ specReadIndex 4 2 (3 / 10) ∧
      readIndexF32 4 2 (1 / 4) = 1 ∧ specReadIndex 4 2 (1 / 4) = 2 ∧
      readIndexF32 4 2 (1 / 4) ≠ specReadIndex 4 2 (1 / 4) := by
  have h1 : readIndex 4 2 (3 / 10) = 1 := by
    norm_num [readIndex, toInt32]
  have h2 : specReadIndex 4 2 (3 / 10) = 2 := by
    have hr : round (3 / 10 : ℚ) = 0 := by
      rw [round_eq, Int.floor_eq_iff]; norm_num
    simp [specReadIndex, hr]
  have h3 : readIndexF32 4 2 (1 / 4) = 1 := by
    have hr : roundF32 (((2 : ℕ) : ℚ) - 1 / 4) = 7 / 4 := by
      rw [roundF32_eval 0 14680064 (by norm_num [abs_of_pos]) (by norm_num [abs_of_pos])
        (by norm_num [roundHalfEven])]
      norm_num
    rw [readIndexF32_eq 4 2 (1 / 4) (by norm_num), hr]
    norm_num [toInt32]
  have h4 : specReadIndex 4 2 (1 / 4) = 2 := by
    have hr : round (1 / 4 : ℚ) = 0 := by
      rw [round_eq, Int.floor_eq_iff]; norm_num
    unfold specReadIndex
    rw [hr]
    decide
  refine ⟨by norm_num, by norm_num, h1, h2, ?_, h3, h4, ?_⟩
  · rw [h1, h2]; decide
  · rw [h3, h4]; decide

/-- **C9** (amended) Read position. For every capacity `0 < C ≤ 2^24`, write
cursor `writepos < C` and smoothed delay `s` with `0 ≤ s < C`, the read index
`run` uses is the binary32 difference `writepos - s` truncated toward zero,
plus `C` when that is negative, and lies in `[0, C)`. Before the wrap it is
within one of the truncation of the exact difference. When the subtraction is
exact it is `writepos - ⌈s⌉` for `s ≤ writepos` and `writepos - ⌊s⌋`, plus `C`
when negative, for `s > writepos`; for an integer `s` it is
`writepos - round(s)`, plus `C` when negative. -/
theorem read_position (C writepos : ℕ) (s : ℚ)
    (hC : 0 < C) (hC24 : C ≤ 2 ^ 24) (hwp : writepos < C) (hs0 : 0 ≤ s) (hsC : s < C) :
    readIndexF32 C writepos s =
        (if toInt32 (roundF32 ((writepos : ℚ) - s)) < 0
          then toInt32 (roundF32 ((writepos : ℚ) - s)) + C
          else toInt32 (roundF32 ((writepos : ℚ) - s))) ∧
      (0 ≤ readIndexF32 C writepos s ∧ readIndexF32 C writepos s < C) ∧
      (toInt32 ((writepos : ℚ) - s) - 1 ≤ toInt32 (roundF32 ((writepos : ℚ) - s)) ∧
        toInt32 (roundF32 ((writepos : ℚ) - s)) ≤ toInt32 ((writepos : ℚ) - s) + 1) ∧
      (roundF32 ((writepos : ℚ) - s) = (writepos : ℚ) - s →
        readIndexF32 C writepos s =
          (if s ≤ writepos then (writepos : ℤ) - ⌈s⌉
           else if (writepos : ℤ) - ⌊s⌋ < 0 then (writepos : ℤ) - ⌊s⌋ + C
           else (writepos : ℤ) - ⌊s⌋)) ∧
      ((∃ k : ℤ, s = k) → readIndexF32 C writepos s = specReadIndex C writepos s) := by
  have hw24 : writepos ≤ 2 ^ 24 := by omega
  have hform := readIndex_formula C writepos s hC hwp hs0 hsC
  have hCq : (C : ℚ) ≤ 2 ^ 24 := by exact_mod_cast hC24
  have hwq : (writepos : ℚ) < C := by exact_mod_cast hwp
  have hw0 : (0 : ℚ) ≤ writepos := Nat.cast_nonneg _
  refine ⟨readIndexF32_eq C writepos s hw24,
    readIndexF32_range C writepos s hC24 hwp hs0 hsC.le, ?_, ?_, ?_⟩
  · exact toInt32_roundF32 _ (by linarith) (by linarith)
  · intro hexact
    rw [readIndexF32_of_exact C writepos s hw24 hexact]
    exact hform.1
  · rintro ⟨k, hk⟩
    have hexact : roundF32 ((writepos : ℚ) - s) = (writepos : ℚ) - s := by
      have hcast : (writepos : ℚ) - s = (((writepos : ℤ) - k : ℤ) : ℚ) := by
        rw [hk]; push_cast; ring
      rw [hcast]
      apply roundF32_intCast
      have hk0 : 0 ≤ k := by
        have : (0 : ℚ) ≤ (k : ℚ) := by rw [← hk]; exact hs0
        exact_mod_cast this
      have hkC : k < C := by
        have : (k : ℚ) < (C : ℚ) := by rw [← hk]; exact hsC
        exact_mod_cast this
      rw [abs_le]
      constructor <;> omega
    rw [readIndexF32_of_exact C writepos s hw24 hexact]
    exact hform.2.2 ⟨k, hk⟩

/-- Witness for C9: capacity 240000, write cursor 200000, smoothed delay
`11520 + 1/1024`. The binary32 difference rounds up to 188480, which is the
index read; the exact difference `188479.999...` would truncate to 188479. -/
theorem read_position_witness :
    readIndexF32 240000 200000 (11796481 / 1024) = 188480 ∧
      readIndex 240000 200000 (11796481 / 1024) = 188479 := by
  have h := (read_position 240000 200000 (11796481 / 1024) (by decide) (by norm_num)
    (by decide) (by norm_num) (by norm_num)).1
  have hr : roundF32 (((200000 : ℕ) : ℚ) - 11796481 / 1024) = 188480 := by
    rw [roundF32_eval 17 12062720 (by norm_num [abs_of_pos]) (by norm_num [abs_of_pos])
      (by norm_num [roundHalfEven])]
    norm_num
  refine ⟨?_, by norm_num [readIndex, toInt32]⟩
  rw [h, hr]
  norm_num [toInt32]

end SimpleDelay
